import Mathlib

/-!
Verification development for the TBX-to-Excel converter
(`tbx_to_excel_converter.py`).  The Python engine is shallowly embedded:
XML elements become an inductive tree, Python dicts become
insertion-ordered association lists, and each method of `TBXConverter`
becomes a pure Lean function translated line by line from the source.
-/

namespace Tbx

/-- XML element, as produced by `xml.etree.ElementTree`: a tag, an
attribute list, an optional text payload and a list of child elements.
The `eid` field models Python object identity (`id(...)`), which the
source uses to deduplicate term groups; distinct nodes of a parsed
document always carry distinct `eid`s. -/
inductive Elem where
  | mk : (eid : Nat) → (tag : String) → (attrs : List (String × String)) →
      (text : Option String) → (children : List Elem) → Elem

namespace Elem

def eid : Elem → Nat
  | .mk i _ _ _ _ => i

def tag : Elem → String
  | .mk _ t _ _ _ => t

def attrs : Elem → List (String × String)
  | .mk _ _ a _ _ => a

def text : Elem → Option String
  | .mk _ _ _ t _ => t

def children : Elem → List Elem
  | .mk _ _ _ _ c => c

end Elem

mutual

/-- All proper descendants of an element, in document (preorder) order. -/
def descendants : Elem → List Elem
  | .mk _ _ _ _ cs => descList cs

/-- Preorder listing of a forest: each root followed by its descendants. -/
def descList : List Elem → List Elem
  | [] => []
  | c :: cs => c :: (descendants c ++ descList cs)

end

/-- Model of `elem.iter()`: the element itself followed by all its
descendants in document order. -/
def iterAll (e : Elem) : List Elem := e :: descendants e

/-- Model of `elem.findall(".//tag")`: all descendants with the given tag,
in document order (the element itself is not a candidate). -/
def findallDesc (e : Elem) (t : String) : List Elem :=
  (descendants e).filter (fun c => c.tag = t)

/-- Model of `elem.findall("tag")`: direct children with the given tag. -/
def findallChild (e : Elem) (t : String) : List Elem :=
  e.children.filter (fun c => c.tag = t)

/-- Model of `elem.find(".//tag")`: first matching descendant, if any. -/
def findDesc (e : Elem) (t : String) : Option Elem :=
  (findallDesc e t).head?

/-- Model of `elem.find("tag")`: first matching direct child, if any. -/
def findChild (e : Elem) (t : String) : Option Elem :=
  (findallChild e t).head?

/-- Model of `elem.get(name)`: attribute lookup returning `none` when the
attribute is absent. -/
def attrGet (e : Elem) (k : String) : Option String :=
  ((e.attrs.find? (fun p => p.1 = k)).map Prod.snd)

/-- Model of `elem.get(name, default)`. -/
def attrGetD (e : Elem) (k d : String) : String :=
  (attrGet e k).getD d

/-- Python truthiness chaining `a or b` for optional strings: an absent or
empty string falls through to the alternative. -/
def pyOrS (a : Option String) (b : String) : String :=
  match a with
  | none => b
  | some s => if s = "" then b else s

/-- ASCII-whitespace test used by `str.strip()` (the source only ever
strips ASCII text). -/
def isWs (c : Char) : Bool := c.isWhitespace

/-- Model of Python `str.strip()`: drop leading and trailing whitespace.
Implemented structurally on the character list so that concrete inputs
evaluate by `decide`. -/
def pyStrip (s : String) : String :=
  String.mk (((s.data.dropWhile isWs).reverse.dropWhile isWs).reverse)

/-- Model of `(elem.text or "").strip()`. -/
def textStrip (e : Elem) : String := pyStrip (e.text.getD "")

/-- Model of Python `str.lower()` on the ASCII tags the source handles. -/
def lowerStr (s : String) : String := String.mk (s.data.map Char.toLower)

/-- Model of the Python substring test `needle in hay`. -/
def strHas (hay needle : String) : Bool :=
  decide (needle.data <:+: hay.data)

/-- Model of Python `str.startswith(p)`. -/
def strStarts (s p : String) : Bool := p.data.isPrefixOf s.data

/-- Model of Python `str.isdigit()` on ASCII text: nonempty and all
characters are decimal digits. -/
def pyIsdigit (s : String) : Bool :=
  !s.data.isEmpty && s.data.all Char.isDigit

/-- Split a character list at every occurrence of `c`, keeping empty
pieces, exactly like Python `str.split(c)`. -/
def splitCh (c : Char) : List Char → List (List Char)
  | [] => [[]]
  | x :: xs =>
    match splitCh c xs with
    | [] => if x = c then [[], []] else [[x]]
    | g :: gs => if x = c then [] :: g :: gs else (x :: g) :: gs

/-- Model of Python `col.split("_")`. -/
def splitUnders (s : String) : List String :=
  (splitCh '_' s.data).map String.mk

/-- Model of Python `"_".join(parts)`. -/
def joinUnders : List String → String
  | [] => ""
  | [x] => x
  | x :: y :: xs => x ++ "_" ++ joinUnders (y :: xs)

section Dict

variable {α : Type}

/-- Key membership in an insertion-ordered dictionary (`k in d`). -/
def dictMem : List (String × α) → String → Bool
  | [], _ => false
  | p :: d, k => p.1 = k || dictMem d k

/-- Model of Python `d[k] = v` on an insertion-ordered dictionary: update
in place when the key exists (keeping its position), otherwise append. -/
def dictSet (d : List (String × α)) (k : String) (v : α) : List (String × α) :=
  if dictMem d k then d.map (fun p => if p.1 = k then (k, v) else p)
  else d ++ [(k, v)]

/-- Model of Python `d.get(k)` returning `None` when absent. -/
def dictFind? : List (String × α) → String → Option α
  | [], _ => none
  | p :: d, k => if p.1 = k then some p.2 else dictFind? d k

/-- Model of Python `d.get(k, default)`. -/
def dictGet (d : List (String × α)) (k : String) (dflt : α) : α :=
  (dictFind? d k).getD dflt

/-- Model of `list(d.keys())`. -/
def dictKeys (d : List (String × α)) : List String := d.map Prod.fst

end Dict

/-- Membership-based set insertion; models adding one element to a Python
set (`s.add(x)` / `s.update`), with the insertion order retained so the
result is deterministic (the source always sorts before using the set). -/
def setAdd (s : List String) (x : String) : List String :=
  if x ∈ s then s else s ++ [x]

/-- Model of `enumerate(l, start=n)`. -/
def pyEnumFrom {α : Type} (n : Nat) : List α → List (Nat × α)
  | [] => []
  | x :: xs => (n, x) :: pyEnumFrom (n + 1) xs

/-- Model of `enumerate(l)`. -/
def pyEnum {α : Type} (l : List α) : List (Nat × α) := pyEnumFrom 0 l

/-- Insert into a `≤`-sorted list of strings, preserving sortedness. -/
def insSorted (x : String) : List String → List String
  | [] => [x]
  | y :: ys => if x ≤ y then x :: y :: ys else y :: insSorted x ys

/-- Model of Python `sorted(list(fields))`: insertion sort by the
lexicographic string order. -/
def sortFields (l : List String) : List String := l.foldr insSorted []

/-- Model of Python `s[n:]`. -/
def pyDropStr (s : String) (n : Nat) : String := String.mk (s.data.drop n)

/-- Namespace URI wrapped in the ElementTree query prefix, `"{uri}"`. -/
def nsWrap (uri : String) : String := "\x7b" ++ uri ++ "\x7d"

/-- Model of `TBXConverter._register_namespaces`: seed the conventional
TBX namespaces, override them with `xmlns` declarations found among the
root attributes, and produce the `self.namespace` dictionary mapping each
nonempty prefix (or `"default"` for the unprefixed namespace) to the
wrapped URI. -/
def registerNamespaces (root : Elem) : List (String × String) :=
  let common0 : List (String × String) :=
    [("", "http://www.lisa.org/TBX-Specification.33.0.html"),
     ("xml", "http://www.w3.org/XML/1998/namespace"),
     ("xlink", "http://www.w3.org/1999/xlink")]
  let common := root.attrs.foldl (fun c p =>
    if strStarts p.1 "xmlns" then
      dictSet c (if strStarts p.1 "xmlns:" then pyDropStr p.1 6 else "") p.2
    else c) common0
  common.foldl (fun d p =>
    if p.1 ≠ "" then dictSet d p.1 (nsWrap p.2)
    else dictSet d "default" (nsWrap p.2)) []

/-- Model of the three-step `termEntry` search shared by
`_scan_available_fields` (lines 44-52) and `parse_tbx` (lines 370-378):
descendant search for `termEntry`, then for the default-namespace
qualified tag, then any element whose lowercased tag contains
`"termentry"`. -/
def termEntriesOf (ns : List (String × String)) (root : Elem) : List Elem :=
  let t1 := findallDesc root "termEntry"
  let t2 :=
    if t1.isEmpty then
      match dictFind? ns "default" with
      | some u => findallDesc root (u ++ "termEntry")
      | none => []
    else t1
  if t2.isEmpty then
    (iterAll root).filter (fun el => strHas (lowerStr el.tag) "termentry")
  else t2

/-- Field classification performed inside one term group by
`_scan_available_fields` (lines 67-88). -/
def scanTermGroupFields (acc : List String) (tg : Elem) : List String :=
  (iterAll tg).foldl (fun acc el =>
    let tn := lowerStr el.tag
    if tn = "term" then setAdd acc "term"
    else if strHas tn "note" then
      setAdd acc ("termNote_" ++ attrGetD el "type" "note")
    else if strHas tn "descrip" then
      setAdd acc ("descrip_" ++ attrGetD el "type" "description")
    else if tn = "definition" ∨ tn = "context" ∨ tn = "example" ∨ tn = "note" then
      setAdd acc tn
    else acc) acc

/-- Per-entry part of `_scan_available_fields` (lines 55-94): term-group
fields from every `langSet`/`langGrp` descendant, then entry-level
`descrip` fields. -/
def scanEntryFields (acc : List String) (entry : Elem) : List String :=
  let lgs := findallDesc entry "langSet" ++ findallDesc entry "langGrp"
  let acc := lgs.foldl (fun acc lg =>
    let tgs := findallDesc lg "tig" ++ findallDesc lg "termGrp"
    tgs.foldl scanTermGroupFields acc) acc
  (iterAll entry).foldl (fun acc el =>
    if strHas (lowerStr el.tag) "descrip" then
      setAdd acc ("entry_descrip_" ++ attrGetD el "type" "description")
    else acc) acc

/-- Fallback field set installed by the `except` branch of
`_scan_available_fields` (lines 99-105). -/
def defaultScanFields : List String :=
  ["entry_id", "language", "term", "termNote_status",
   "termNote_forbidden", "termNote_preferred"]

/-- Successful body of `_scan_available_fields`: sample the first three
entries, classify their fields, and always add the three standard
fields. -/
def scanFieldsBody (root : Elem) : List String :=
  let ns := registerNamespaces root
  let tes := termEntriesOf ns root
  let acc := (tes.take 3).foldl scanEntryFields []
  ["entry_id", "language", "term"].foldl setAdd acc

/-- Model of `_scan_available_fields` as a whole.  The only failure point
of the sampled scan is the initial `ET.parse` (the traversal body itself
is total), so the embedding takes the parse result as an `Option`: a
failed parse (`none`) lands in the `except` branch and yields the fixed
fallback set instead of aborting. -/
def scanAvailableFields : Option Elem → List String
  | none => defaultScanFields
  | some root => scanFieldsBody root

/-- Language-code resolution of `_extract_term_info` (lines 254-256):
`xml:lang`, then `lang`, then the namespace-qualified XML lang attribute,
with Python `or`-chaining (absent or empty falls through). -/
def langCodeOf (lg : Elem) : String :=
  pyOrS (attrGet lg "xml:lang")
    (pyOrS (attrGet lg "lang")
      (attrGetD lg "\x7bhttp://www.w3.org/XML/1998/namespace\x7dlang" ""))

/-- Deduplication by Python object identity with an explicit seen set. -/
def dedupByEidAux : List Elem → List Nat → List Elem
  | [], _ => []
  | e :: es, seen =>
    if e.eid ∈ seen then dedupByEidAux es seen
    else e :: dedupByEidAux es (e.eid :: seen)

/-- Deduplication by Python object identity, `{id(tg): tg for ...}`:
keep the first occurrence of each `eid`. -/
def dedupByEid (l : List Elem) : List Elem := dedupByEidAux l []

/-- Term-group collection of `_extract_term_info` (lines 262-280):
descendant and child searches for `tig` and `termGrp`, plus the
default-namespace qualified descendant searches, deduplicated by object
identity. -/
def termGroupsOf (ns : List (String × String)) (lg : Elem) : List Elem :=
  let tgs := findallDesc lg "tig" ++ findallChild lg "tig"
    ++ findallDesc lg "termGrp" ++ findallChild lg "termGrp"
  let tgs := tgs ++
    (match dictFind? ns "default" with
     | some u => findallDesc lg (u ++ "tig") ++ findallDesc lg (u ++ "termGrp")
     | none => [])
  dedupByEid tgs

/-- Term-element search of `_extract_term_info` (lines 293-309):
descendant `term`, child `term`, default-namespace qualified `term`, then
the first element of `term_grp.iter()` whose lowercased tag contains
`"term"` (note that `iter()` starts with the term group itself). -/
def termElemOf (ns : List (String × String)) (tg : Elem) : Option Elem :=
  match findDesc tg "term" with
  | some e => some e
  | none =>
    match findChild tg "term" with
    | some e => some e
    | none =>
      match (match dictFind? ns "default" with
             | some u => findDesc tg (u ++ "term")
             | none => none) with
      | some e => some e
      | none => (iterAll tg).find? (fun c => strHas (lowerStr c.tag) "term")

/-- Trimmed text of the term element found in a term group, when one is
found: `(term_elem.text or "").strip()`. -/
def termTextOf (ns : List (String × String)) (tg : Elem) : Option String :=
  (termElemOf ns tg).map (fun el => textStrip el)

/-- One `TermRecord` as built by the loop body of `_extract_term_info`
(lines 288-350): all selected fields (except `entry_id`) initialised to
`""`, the language, the base term when selected, then every descendant
element classified into `termNote_*` / `descrip_*` / plain-tag fields,
written only when selected and nonempty. -/
def termRecordOf (ns : List (String × String)) (sel : List String)
    (lang : String) (tg : Elem) : List (String × String) :=
  let d := sel.foldl (fun d f => if f = "entry_id" then d else dictSet d f "") []
  let d := dictSet d "language" lang
  let t := (termTextOf ns tg).getD ""
  let d := if "term" ∈ sel then dictSet d "term" t else d
  (iterAll tg).foldl (fun d el =>
    let tn := lowerStr el.tag
    let et := textStrip el
    if et = "" then d
    else if strHas tn "note" then
      let fn := "termNote_" ++ attrGetD el "type" "note"
      if fn ∈ sel then dictSet d fn et else d
    else if strHas tn "descrip" then
      let fn := "descrip_" ++ attrGetD el "type" "description"
      if fn ∈ sel then dictSet d fn et else d
    else if tn ∈ sel then dictSet d tn et
    else d) d

/-- Main loop of `_extract_term_info` (lines 287-353): walk the term
groups keeping a `seen_terms` set; a group with no term element, an
empty trimmed text, or an already-seen text contributes nothing, any
other group contributes its `TermRecord`. -/
def extractTermsAux (ns : List (String × String)) (sel : List String)
    (lang : String) : List Elem → List String → List (List (String × String))
  | [], _ => []
  | tg :: tgs, seen =>
    match termTextOf ns tg with
    | none => extractTermsAux ns sel lang tgs seen
    | some t =>
      if t = "" ∨ t ∈ seen then extractTermsAux ns sel lang tgs seen
      else termRecordOf ns sel lang tg :: extractTermsAux ns sel lang tgs (t :: seen)

/-- Model of `TBXConverter._extract_term_info`: the resolved language
code together with the ordered deduplicated `TermRecord`s. -/
def extractTermInfo (ns : List (String × String)) (sel : List String)
    (lg : Elem) : String × List (List (String × String)) :=
  let lang := langCodeOf lg
  (lang, extractTermsAux ns sel lang (termGroupsOf ns lg) [])

/-- Structured data collected for one entry by `parse_tbx` (lines
387-434): the selected entry-level fields and the ordered
language-to-terms mapping.  The entry id is carried separately as the
`entries_data` dictionary key. -/
structure EntryData where
  entryFields : List (String × String)
  languages : List (String × List (List (String × String)))

/-- Language-group collection of `parse_tbx` (lines 404-425): `langSet`
(descendants then children), falling back to `langGrp`, then to the
default-namespace qualified names, then to any element whose lowercased
tag contains `"lang"` together with `"grp"` or `"set"`. -/
def langGroupsOf (ns : List (String × String)) (entry : Elem) : List Elem :=
  let l1 := findallDesc entry "langSet" ++ findallChild entry "langSet"
  let l2 :=
    if l1.isEmpty then findallDesc entry "langGrp" ++ findallChild entry "langGrp"
    else l1
  let l3 :=
    if l2.isEmpty then
      match dictFind? ns "default" with
      | some u => findallDesc entry (u ++ "langSet") ++ findallDesc entry (u ++ "langGrp")
      | none => []
    else l2
  if l3.isEmpty then
    (iterAll entry).filter (fun el =>
      let t := lowerStr el.tag
      strHas t "lang" && (strHas t "grp" || strHas t "set"))
  else l3

/-- Entry-level field extraction of `parse_tbx` (lines 394-402):
`entry_descrip_<type>` for every `descrip`-tagged descendant and
`entry_subject` for `subject`-tagged descendants, when selected and
nonempty. -/
def entryLevelFields (sel : List String) (entry : Elem) : List (String × String) :=
  (iterAll entry).foldl (fun d el =>
    let tl := lowerStr el.tag
    if strHas tl "descrip" then
      let fn := "entry_descrip_" ++ attrGetD el "type" "description"
      if fn ∈ sel ∧ textStrip el ≠ "" then dictSet d fn (textStrip el) else d
    else if strHas tl "subject" then
      if "entry_subject" ∈ sel ∧ textStrip el ≠ "" then
        dictSet d "entry_subject" (textStrip el)
      else d
    else d) []

/-- Single step of the language loop of `parse_tbx` (lines 430-434): a
language group is recorded only when the resolved language code is
nonempty and at least one `TermRecord` was extracted. -/
def addLangGroup (ns : List (String × String)) (sel : List String)
    (acc : List (String × List (List (String × String)))) (lg : Elem) :
    List (String × List (List (String × String))) :=
  let r := extractTermInfo ns sel lg
  if r.1 ≠ "" ∧ r.2 ≠ [] then dictSet acc r.1 r.2 else acc

/-- Language mapping built for one entry by `parse_tbx`. -/
def buildLanguages (ns : List (String × String)) (sel : List String)
    (entry : Elem) : List (String × List (List (String × String))) :=
  (langGroupsOf ns entry).foldl (addLangGroup ns sel) []

/-- All structured data collected for one entry element. -/
def buildEntryData (ns : List (String × String)) (sel : List String)
    (entry : Elem) : EntryData :=
  { entryFields := entryLevelFields sel entry
    languages := buildLanguages ns sel entry }

/-- Entry identifier resolution of `parse_tbx` (line 384): the `id`
attribute, or the synthesized `entry_<i>` with the 1-based loop index. -/
def resolveEntryId (entry : Elem) (i : Nat) : String :=
  attrGetD entry "id" ("entry_" ++ Nat.repr i)

/-- The per-entry data of `parse_tbx` in document order, before being
stored into the `entries_data` dictionary. -/
def parseEntriesList (ns : List (String × String)) (sel : List String)
    (root : Elem) : List (String × EntryData) :=
  (pyEnumFrom 1 (termEntriesOf ns root)).map
    (fun p => (resolveEntryId p.2 p.1, buildEntryData ns sel p.2))

/-- Model of the `entries_data` dictionary built by `parse_tbx` (line
439): each entry is stored under its resolved id, so a repeated id
overwrites the earlier entry in place. -/
def parseEntries (ns : List (String × String)) (sel : List String)
    (root : Elem) : List (String × EntryData) :=
  (parseEntriesList ns sel root).foldl (fun d p => dictSet d p.1 p.2) []

/-- Column naming of `_flatten_entries_to_rows` (lines 519-523):
`{lang}_{field}` for the first term of a language, and
`{lang}_{field}_{i+1}` for the term at 0-based position `i > 0`. -/
def colName (lang f : String) (i : Nat) : String :=
  if i = 0 then lang ++ "_" ++ f
  else lang ++ "_" ++ f ++ "_" ++ Nat.repr (i + 1)

/-- Test for the fields skipped by the language/term loop of the
flattener (line 516): entry-level fields and the entry id. -/
def isEntryLevel (f : String) : Bool :=
  strStarts f "entry_" || f = "entry_id"

/-- Entry-level part of a flattened row (lines 481-493): the entry id
when selected, then every selected `entry_*` field, blank when absent. -/
def rowBase (sel : List String) (eid : String)
    (efields : List (String × String)) : List (String × String) :=
  let r := if "entry_id" ∈ sel then dictSet ([] : List (String × String)) "entry_id" eid else []
  sel.foldl (fun r f =>
    if strStarts f "entry_" ∧ f ≠ "entry_id" then
      dictSet r f (dictGet efields f "")
    else r) r

/-- One flattened row (lines 481-530): the entry-level part, and — when
the entry has languages — one column per language, term position and
selected non-entry-level field. -/
def rowOfEntry (sel : List String) (eid : String) (ed : EntryData) :
    List (String × String) :=
  let base := rowBase sel eid ed.entryFields
  if ed.languages.isEmpty then base
  else
    ed.languages.foldl (fun r p =>
      (pyEnum p.2).foldl (fun r q =>
        sel.foldl (fun r f =>
          if isEntryLevel f then r
          else dictSet r (colName p.1 f q.1) (dictGet q.2 f "")) r) r) base

/-- Model of `_flatten_entries_to_rows`: one row appended per stored
entry, in dictionary order. -/
def flattenRows (sel : List String) (entries : List (String × EntryData)) :
    List (List (String × String)) :=
  entries.foldl (fun rows p => rows ++ [rowOfEntry sel p.1 p.2]) []

/-- Column list of `pd.DataFrame(rows)`: the union of the row keys in
first-seen order. -/
def allColumns (rows : List (List (String × String))) : List String :=
  rows.foldl (fun cols r => r.foldl (fun cols p => setAdd cols p.1) cols) []

/-- Column renaming of `to_excel` (lines 570-608), for one column name:
split on underscores when one is present, treat the first segment as the
language prefix, peel a purely numeric last segment as an index suffix
when there are at least three segments, look the base field up in the
mapping (then the whole name), and keep the original name when nothing
matches or the chosen replacement is the empty string (Python
truthiness of `if new_name:`). -/
def renameCol (m : List (String × String)) (col : String) : String :=
  let new1 : Option String :=
    if strHas col "_" then
      let parts := splitUnders col
      if 2 ≤ parts.length then
        let langp := parts.headD ""
        let lastp := parts.getLastD ""
        let tb : String × String :=
          if 3 ≤ parts.length ∧ pyIsdigit lastp then
            ("_" ++ lastp, joinUnders ((parts.drop 1).dropLast))
          else ("", joinUnders (parts.drop 1))
        if dictMem m tb.2 then
          some (langp ++ "_" ++ dictGet m tb.2 "" ++ tb.1)
        else if dictMem m col then some (dictGet m col "")
        else none
      else none
    else none
  let new2 : Option String :=
    match new1 with
    | none => if dictMem m col then some (dictGet m col "") else none
    | some s => some s
  match new2 with
  | some s => if s = "" then col else s
  | none => col

/-- Renaming stage of `to_excel` (lines 565-611): with a nonempty field
mapping every column of the table is renamed through `renameCol`; with
an empty mapping the stage is skipped.  The result is the final column
list together with the (re-keyed) rows. -/
def applyMappings (m : List (String × String))
    (rows : List (List (String × String))) :
    List String × List (List (String × String)) :=
  if m.isEmpty then (allColumns rows, rows)
  else ((allColumns rows).map (renameCol m),
        rows.map (fun r => r.map (fun p => (renameCol m p.1, p.2))))

/-- Identity field mapping `{field: field for field in selected}`, used
by auto mode (line 729) and by the `keep` branch of
`_interactive_field_renaming` (line 166). -/
def identityMap (sel : List String) : List (String × String) :=
  sel.foldl (fun d f => dictSet d f f) []

/-- Model of Python `int(token)` on the nonnegative decimal tokens the
selection prompt accepts. -/
def pyToNat (s : String) : Option Nat :=
  if !s.data.isEmpty && s.data.all Char.isDigit then
    some (s.data.foldl (fun a c => a * 10 + (c.toNat - 48)) 0)
  else none

/-- One round of `_interactive_field_selection` (lines 123-145): `all`
selects every sorted field; otherwise the comma-separated numbers are
parsed and validated against the 1-based field list, `none` standing for
a rejected input that reprompts. -/
def interactiveSelect (sorted : List String) (input : String) :
    Option (List String) :=
  let u := pyStrip input
  if lowerStr u = "all" then some sorted
  else
    let toks := (splitCh ',' u.data).map (fun l => pyStrip (String.mk l))
    match toks.mapM pyToNat with
    | none => none
    | some nums =>
      if nums.any (fun n => n < 1 || sorted.length < n) then none
      else some (nums.map (fun n => sorted.getD (n - 1) ""))

/-- First round of `_interactive_field_renaming` (lines 156-168): the
`keep` answer installs the identity mapping; any other continuation of
the dialogue is outside the modelled fragment (`none`). -/
def renameChoiceStep (sel : List String) (choice : String) :
    Option (List (String × String)) :=
  if lowerStr (pyStrip choice) = "keep" then some (identityMap sel)
  else none

/-- Auto-mode configuration (lines 725-729): every discovered field,
sorted, with the identity mapping. -/
def autoConfig (p : Option Elem) : List String × List (String × String) :=
  let sel := sortFields (scanAvailableFields p)
  (sel, identityMap sel)

/-- Manual configuration in which the user answers `all` to the field
selection and `keep` to the renaming prompt. -/
def manualConfigAll (p : Option Elem) :
    Option (List String × List (String × String)) :=
  match interactiveSelect (sortFields (scanAvailableFields p)) "all" with
  | none => none
  | some sel =>
    match renameChoiceStep sel "keep" with
    | none => none
    | some m => some (sel, m)

/-- Whole engine on a parsed document: parse, flatten, rename; the
output is the column list and rows handed to the spreadsheet writer. -/
def convertOut (root : Elem) (sel : List String)
    (m : List (String × String)) :
    List String × List (List (String × String)) :=
  applyMappings m (flattenRows sel (parseEntries (registerNamespaces root) sel root))

/-! ### Dictionary lemmas -/

section DictLemmas

variable {α : Type}

theorem dictMem_iff (d : List (String × α)) (k : String) :
    dictMem d k = true ↔ ∃ p ∈ d, p.1 = k := by
  induction d with
  | nil => simp [dictMem]
  | cons p d ih => simp [dictMem, ih]

theorem dictMem_append (d e : List (String × α)) (k : String) :
    dictMem (d ++ e) k = (dictMem d k || dictMem e k) := by
  induction d with
  | nil => simp [dictMem]
  | cons p d ih => simp [dictMem, ih, Bool.or_assoc]

theorem dictFind?_map_upd (d : List (String × α)) (k : String) (v : α) :
    dictFind? (d.map (fun p => if p.1 = k then (k, v) else p)) k =
      if dictMem d k then some v else none := by
  induction d with
  | nil => rfl
  | cons p d ih =>
    by_cases h : p.1 = k
    · simp [dictFind?, dictMem, h]
    · simp only [List.map_cons, if_neg h, dictFind?, dictMem]
      rw [ih]
      simp [h]

theorem dictFind?_map_upd_other (d : List (String × α)) (k k' : String)
    (v : α) (h : k' ≠ k) :
    dictFind? (d.map (fun p => if p.1 = k then (k, v) else p)) k' =
      dictFind? d k' := by
  induction d with
  | nil => rfl
  | cons p d ih =>
    by_cases hp : p.1 = k
    · have hk : ¬ (k = k') := fun he => h he.symm
      simp only [List.map_cons, if_pos hp, dictFind?]
      rw [if_neg hk, if_neg (hp ▸ hk), ih]
    · simp only [List.map_cons, if_neg hp, dictFind?]
      by_cases hp' : p.1 = k'
      · rw [if_pos hp', if_pos hp']
      · rw [if_neg hp', if_neg hp', ih]

theorem dictFind?_append (d e : List (String × α)) (k : String) :
    dictFind? (d ++ e) k =
      match dictFind? d k with
      | some v => some v
      | none => dictFind? e k := by
  induction d with
  | nil => rfl
  | cons p d ih =>
    by_cases hp : p.1 = k <;> simp [dictFind?, hp, ih]

theorem dictFind?_eq_none_of_not_mem {d : List (String × α)} {k : String}
    (h : dictMem d k = false) : dictFind? d k = none := by
  induction d with
  | nil => rfl
  | cons p d ih =>
    simp only [dictMem, Bool.or_eq_false_iff, decide_eq_false_iff_not] at h
    simp only [dictFind?, if_neg h.1]
    exact ih h.2

theorem dictFind?_set_self (d : List (String × α)) (k : String) (v : α) :
    dictFind? (dictSet d k v) k = some v := by
  unfold dictSet
  by_cases h : dictMem d k
  · rw [if_pos h, dictFind?_map_upd, if_pos h]
  · rw [if_neg h, dictFind?_append, dictFind?_eq_none_of_not_mem (by simpa using h)]
    simp [dictFind?]

theorem dictFind?_set_other (d : List (String × α)) (k k' : String) (v : α)
    (h : k' ≠ k) :
    dictFind? (dictSet d k v) k' = dictFind? d k' := by
  unfold dictSet
  by_cases hm : dictMem d k
  · rw [if_pos hm, dictFind?_map_upd_other _ _ _ _ h]
  · rw [if_neg hm, dictFind?_append]
    have hk : ¬ (k = k') := fun he => h he.symm
    cases hf : dictFind? d k' with
    | some v => rfl
    | none => simp [dictFind?, hk]

theorem dictMem_map_upd (d : List (String × α)) (k k' : String) (v : α) :
    dictMem (d.map (fun p => if p.1 = k then (k, v) else p)) k' =
      if k = k' then dictMem d k else dictMem d k' := by
  induction d with
  | nil => by_cases hk : k = k' <;> simp [dictMem, hk]
  | cons p d ih =>
    by_cases hp : p.1 = k
    · by_cases hk : k = k'
      · subst hk
        simp [dictMem, List.map_cons, if_pos hp, ih, hp]
      · have hp' : ¬ p.1 = k' := fun hh => hk (hp.symm.trans hh)
        simp [dictMem, List.map_cons, if_pos hp, ih, hp', hk]
    · by_cases hk : k = k'
      · subst hk
        simp [dictMem, List.map_cons, if_neg hp, ih, hp]
      · simp [dictMem, List.map_cons, if_neg hp, ih, hk]

theorem dictMem_set (d : List (String × α)) (k k' : String) (v : α) :
    dictMem (dictSet d k v) k' = (dictMem d k' || k = k') := by
  unfold dictSet
  by_cases hm : dictMem d k
  · rw [if_pos hm, dictMem_map_upd]
    by_cases hk : k = k'
    · subst hk
      simp [hm]
    · simp [hk]
  · rw [if_neg hm, dictMem_append]
    simp [dictMem, Bool.or_comm]

theorem dictKeys_set_subset (d : List (String × α)) (k k' : String) (v : α)
    (h : dictMem (dictSet d k v) k' = true) :
    dictMem d k' = true ∨ k = k' := by
  rw [dictMem_set] at h
  simpa using h

end DictLemmas

/-! ### Row building as a flat list of column writes -/

/-- Sequential application of `(column, value)` writes to a row. -/
def applyWrites (base : List (String × String))
    (ws : List (String × String)) : List (String × String) :=
  ws.foldl (fun r w => dictSet r w.1 w.2) base

theorem applyWrites_nil (base : List (String × String)) :
    applyWrites base [] = base := rfl

theorem applyWrites_cons (base : List (String × String))
    (w : String × String) (ws : List (String × String)) :
    applyWrites base (w :: ws) = applyWrites (dictSet base w.1 w.2) ws := rfl

theorem applyWrites_append (base : List (String × String))
    (a b : List (String × String)) :
    applyWrites base (a ++ b) = applyWrites (applyWrites base a) b := by
  simp [applyWrites, List.foldl_append]

theorem foldl_applyWrites {β : Type} (w : β → List (String × String))
    (l : List β) : ∀ r, l.foldl (fun r x => applyWrites r (w x)) r =
      applyWrites r (l.flatMap w) := by
  induction l with
  | nil => intro r; rfl
  | cons x l ih =>
    intro r
    simp only [List.foldl_cons, List.flatMap_cons, applyWrites_append]
    exact ih _

theorem applyWrites_mem (base : List (String × String))
    (ws : List (String × String)) (k : String) :
    dictMem (applyWrites base ws) k =
      (dictMem base k || ws.any (fun w => w.1 = k)) := by
  induction ws generalizing base with
  | nil => simp [applyWrites]
  | cons w ws ih =>
    rw [applyWrites_cons, ih, dictMem_set]
    by_cases h : w.1 = k <;> simp [h]

theorem applyWrites_find?_of_not_written (base : List (String × String))
    (ws : List (String × String)) (k : String)
    (h : ∀ w ∈ ws, w.1 ≠ k) :
    dictFind? (applyWrites base ws) k = dictFind? base k := by
  induction ws generalizing base with
  | nil => rfl
  | cons w ws ih =>
    rw [applyWrites_cons, ih _ (fun w hw => h w (List.mem_cons_of_mem _ hw)),
      dictFind?_set_other _ _ _ _ (fun he => h w (List.mem_cons_self _ _) he.symm)]

theorem applyWrites_find?_of_written (base : List (String × String))
    (ws : List (String × String)) (k : String) (v : String)
    (huniq : ∀ w ∈ ws, w.1 = k → w.2 = v)
    (hex : ∃ w ∈ ws, w.1 = k) :
    dictFind? (applyWrites base ws) k = some v := by
  induction ws generalizing base with
  | nil => exact absurd hex (by simp)
  | cons w ws ih =>
    rw [applyWrites_cons]
    by_cases hrest : ∃ u ∈ ws, u.1 = k
    · exact ih _ (fun u hu => huniq u (List.mem_cons_of_mem _ hu)) hrest
    · have hw : w.1 = k := by
        rcases hex with ⟨u, hu, huk⟩
        rcases List.mem_cons.1 hu with h | h
        · exact h ▸ huk
        · exact absurd ⟨u, h, huk⟩ hrest
      have hv : w.2 = v := huniq w (List.mem_cons_self _ _) hw
      have hnone : ∀ u ∈ ws, u.1 ≠ k := fun u hu he => hrest ⟨u, hu, he⟩
      rw [applyWrites_find?_of_not_written _ _ _ hnone, ← hw, ← hv,
        dictFind?_set_self]

/-- Fields reaching the language/term loop of the flattener. -/
def selNonEntry (sel : List String) : List String :=
  sel.filter (fun f => !isEntryLevel f)

/-- All `(column, value)` writes performed by the language/term loop of
`_flatten_entries_to_rows` for one entry, in execution order. -/
def entryWrites (sel : List String)
    (langs : List (String × List (List (String × String)))) :
    List (String × String) :=
  langs.flatMap (fun p =>
    (pyEnum p.2).flatMap (fun q =>
      (selNonEntry sel).map (fun f => (colName p.1 f q.1, dictGet q.2 f ""))))

theorem flatMap_if_nil {β γ : Type} (p : β → Bool) (g : β → γ) (l : List β) :
    l.flatMap (fun x => if p x then [] else [g x]) =
      (l.filter (fun x => !p x)).map g := by
  induction l with
  | nil => rfl
  | cons x l ih =>
    by_cases h : p x <;> simp [List.flatMap_cons, h, ih]

theorem sel_foldl_eq_applyWrites (sel : List String) (l : String)
    (i : Nat) (td : List (String × String)) :
    ∀ r, sel.foldl (fun r f =>
        if isEntryLevel f then r
        else dictSet r (colName l f i) (dictGet td f "")) r =
      applyWrites r
        ((selNonEntry sel).map (fun f => (colName l f i, dictGet td f ""))) := by
  induction sel with
  | nil => intro r; rfl
  | cons f fs ih =>
    intro r
    by_cases h : isEntryLevel f
    · simp only [List.foldl_cons, if_pos h, selNonEntry, List.filter_cons, h,
        Bool.not_true]
      exact ih r
    · have hb : isEntryLevel f = false := by simpa using h
      simp only [List.foldl_cons, if_neg h, selNonEntry, List.filter_cons, hb,
        Bool.not_false, if_true, List.map_cons, applyWrites_cons]
      exact ih _

theorem rowOfEntry_eq_applyWrites (sel : List String) (eid : String)
    (ed : EntryData) :
    rowOfEntry sel eid ed =
      applyWrites (rowBase sel eid ed.entryFields)
        (entryWrites sel ed.languages) := by
  unfold rowOfEntry
  by_cases h : ed.languages.isEmpty
  · rw [if_pos h]
    have he : ed.languages = [] := by
      cases hl : ed.languages <;> simp [hl] at h ⊢
    rw [he]
    rfl
  · rw [if_neg h]
    unfold entryWrites
    rw [← foldl_applyWrites]
    apply List.foldl_ext
    intro r p _
    rw [← foldl_applyWrites]
    apply List.foldl_ext
    intro r' q _
    rw [sel_foldl_eq_applyWrites]

/-! ### Decimal rendering: characterisation of `Nat.repr` -/

/-- Decimal digit characters of `n`, most significant first, via the
verified `Nat.digits` of Mathlib. -/
def myDigits (n : Nat) : List Char :=
  if n = 0 then ['0'] else ((Nat.digits 10 n).map Nat.digitChar).reverse

theorem toDigitsCore_eq_myDigits :
    ∀ (fuel n : Nat) (ds : List Char), 0 < fuel → n < 10 ^ fuel →
      Nat.toDigitsCore 10 fuel n ds = myDigits n ++ ds := by
  intro fuel
  induction fuel with
  | zero => intro n ds hf; omega
  | succ f ih =>
    intro n ds _ hlt
    rw [Nat.toDigitsCore]
    by_cases hz : n / 10 = 0
    · rw [if_pos hz]
      by_cases h0 : n = 0
      · subst h0; rfl
      · have hdig : Nat.digits 10 n = [n % 10] := by
          rw [Nat.digits_def' (by norm_num : 1 < 10) (Nat.pos_of_ne_zero h0), hz]
          simp
        simp [myDigits, h0, hdig]
    · rw [if_neg hz]
      have hn0 : n ≠ 0 := fun h => hz (by simp [h])
      have hge : 10 ≤ n := by
        by_contra hlt10
        exact hz (Nat.div_eq_of_lt (by omega))
      have hfpos : 0 < f := by
        by_contra hf0
        have : f = 0 := by omega
        subst this
        simp at hlt
        omega
      have hlt' : n / 10 < 10 ^ f := by
        rw [Nat.div_lt_iff_lt_mul (by norm_num : 0 < 10)]
        calc n < 10 ^ (f + 1) := hlt
        _ = 10 ^ f * 10 := by rw [pow_succ]
      rw [ih (n / 10) _ hfpos hlt']
      have hstep : myDigits n = myDigits (n / 10) ++ [Nat.digitChar (n % 10)] := by
        have hd : Nat.digits 10 n = n % 10 :: Nat.digits 10 (n / 10) :=
          Nat.digits_def' (by norm_num : 1 < 10) (Nat.pos_of_ne_zero hn0)
        simp [myDigits, hn0, hz, hd]
      rw [hstep, List.append_assoc]
      rfl

theorem repr_eq_myDigits (n : Nat) : (Nat.repr n).data = myDigits n := by
  have h := toDigitsCore_eq_myDigits (n + 1) n [] (Nat.succ_pos n)
    (lt_of_lt_of_le (Nat.lt_pow_self (by norm_num : 1 < 10) n)
      (Nat.pow_le_pow_right (by norm_num) (by omega)))
  simpa [Nat.repr, Nat.toDigits, List.asString] using h

theorem digitChar_isDigit {d : Nat} (h : d < 10) :
    (Nat.digitChar d).isDigit = true := by
  interval_cases d <;> decide

theorem digitChar_inj_lt {d e : Nat} (hd : d < 10) (he : e < 10)
    (h : Nat.digitChar d = Nat.digitChar e) : d = e := by
  interval_cases d <;> interval_cases e <;> first | rfl | (exfalso; exact absurd h (by decide))

theorem myDigits_all_digit (n : Nat) : ∀ c ∈ myDigits n, c.isDigit = true := by
  intro c hc
  unfold myDigits at hc
  by_cases h0 : n = 0
  · simp [h0] at hc
    simp [hc]
  · rw [if_neg h0, List.mem_reverse, List.mem_map] at hc
    obtain ⟨d, hd, rfl⟩ := hc
    exact digitChar_isDigit (Nat.digits_lt_base (by norm_num) hd)

theorem repr_all_digit (n : Nat) : ∀ c ∈ (Nat.repr n).data, c.isDigit = true := by
  rw [repr_eq_myDigits]
  exact myDigits_all_digit n

theorem underscore_not_mem_repr (n : Nat) : '_' ∉ (Nat.repr n).data := by
  intro h
  have := repr_all_digit n _ h
  simp [Char.isDigit] at this

theorem repr_ne_nil (n : Nat) : (Nat.repr n).data ≠ [] := by
  rw [repr_eq_myDigits]
  unfold myDigits
  by_cases h0 : n = 0
  · simp [h0]
  · rw [if_neg h0]
    simp [Nat.digits_ne_nil_iff_ne_zero.2 h0]

theorem map_digitChar_inj :
    ∀ l1 l2 : List Nat, (∀ d ∈ l1, d < 10) → (∀ d ∈ l2, d < 10) →
      l1.map Nat.digitChar = l2.map Nat.digitChar → l1 = l2 := by
  intro l1
  induction l1 with
  | nil => intro l2 _ _ h; cases l2 <;> simp_all
  | cons d l1 ih =>
    intro l2 h1 h2 h
    cases l2 with
    | nil => simp at h
    | cons e l2 =>
      simp only [List.map_cons, List.cons.injEq] at h
      have hde : d = e := digitChar_inj_lt (h1 d (by simp)) (h2 e (by simp)) h.1
      rw [hde, ih l2 (fun x hx => h1 x (by simp [hx])) (fun x hx => h2 x (by simp [hx])) h.2]

theorem pos_repr_has_digits (n : Nat) :
    (Nat.repr n).data ≠ [] ∧ ∀ c ∈ (Nat.repr n).data, c.isDigit = true :=
  ⟨repr_ne_nil n, repr_all_digit n⟩

theorem repr_injective {m n : Nat} (h : Nat.repr m = Nat.repr n) : m = n := by
  have hd : myDigits m = myDigits n := by
    rw [← repr_eq_myDigits, ← repr_eq_myDigits, h]
  unfold myDigits at hd
  by_cases hm : m = 0 <;> by_cases hn : n = 0
  · rw [hm, hn]
  · rw [if_pos hm, if_neg hn] at hd
    have hrev := congrArg List.reverse hd
    simp only [List.reverse_reverse] at hrev
    have hmap : (Nat.digits 10 n).map Nat.digitChar = [Nat.digitChar 0] := by
      simpa using hrev.symm
    have hdig : Nat.digits 10 n = [0] :=
      map_digitChar_inj _ [0] (fun d hdm => Nat.digits_lt_base (by norm_num) hdm)
        (by simp) hmap
    have := congrArg (Nat.ofDigits 10) hdig
    rw [Nat.ofDigits_digits] at this
    simp [Nat.ofDigits] at this
    exact absurd this hn
  · rw [if_neg hm, if_pos hn] at hd
    have hrev := congrArg List.reverse hd
    simp only [List.reverse_reverse] at hrev
    have hmap : (Nat.digits 10 m).map Nat.digitChar = [Nat.digitChar 0] := by
      simpa using hrev
    have hdig : Nat.digits 10 m = [0] :=
      map_digitChar_inj _ [0] (fun d hdm => Nat.digits_lt_base (by norm_num) hdm)
        (by simp) hmap
    have := congrArg (Nat.ofDigits 10) hdig
    rw [Nat.ofDigits_digits] at this
    simp [Nat.ofDigits] at this
    exact absurd this hm
  · rw [if_neg hm, if_neg hn] at hd
    have hrev := congrArg List.reverse hd
    simp only [List.reverse_reverse] at hrev
    have : Nat.digits 10 m = Nat.digits 10 n :=
      map_digitChar_inj _ _ (fun d hdm => Nat.digits_lt_base (by norm_num) hdm)
        (fun d hdn => Nat.digits_lt_base (by norm_num) hdn) hrev
    have := congrArg (Nat.ofDigits 10) this
    rwa [Nat.ofDigits_digits, Nat.ofDigits_digits] at this

/-! ### Underscore-splitting lemmas and injectivity of the column naming -/

/-- Strings with no underscore, such as ordinary language codes. -/
def noUnd (s : String) : Prop := '_' ∉ s.data

instance (s : String) : Decidable (noUnd s) := by
  unfold noUnd
  infer_instance

theorem append_underscore_inj :
    ∀ (xs ys as bs : List Char), '_' ∉ xs → '_' ∉ ys →
      xs ++ '_' :: as = ys ++ '_' :: bs → xs = ys ∧ as = bs := by
  intro xs
  induction xs with
  | nil =>
    intro ys as bs _ hy h
    cases ys with
    | nil => simpa using h
    | cons y ys =>
      simp only [List.nil_append, List.cons_append, List.cons.injEq] at h
      exact absurd (h.1 ▸ List.mem_cons_self _ _ : '_' ∈ y :: ys) hy
  | cons x xs ih =>
    intro ys as bs hx hy h
    cases ys with
    | nil =>
      simp only [List.cons_append, List.nil_append, List.cons.injEq] at h
      exact absurd (h.1 ▸ List.mem_cons_self _ _ : '_' ∈ x :: xs) hx
    | cons y ys =>
      simp only [List.cons_append, List.cons.injEq] at h
      obtain ⟨hxy, hrest⟩ := h
      have := ih ys as bs (fun hm => hx (List.mem_cons_of_mem _ hm))
        (fun hm => hy (List.mem_cons_of_mem _ hm)) hrest
      exact ⟨by rw [hxy, this.1], this.2⟩

theorem append_underscore_inj_right :
    ∀ (xs ys as bs : List Char), '_' ∉ as → '_' ∉ bs →
      xs ++ '_' :: as = ys ++ '_' :: bs → xs = ys ∧ as = bs := by
  intro xs ys as bs ha hb h
  have hrev : as.reverse ++ '_' :: xs.reverse = bs.reverse ++ '_' :: ys.reverse := by
    have := congrArg List.reverse h
    simpa [List.reverse_append] using this
  have := append_underscore_inj as.reverse bs.reverse xs.reverse ys.reverse
    (by simpa using ha) (by simpa using hb) hrev
  constructor
  · have := this.2
    simpa using congrArg List.reverse this
  · have := this.1
    simpa using congrArg List.reverse this

theorem colName_data_zero (l f : String) :
    (colName l f 0).data = l.data ++ '_' :: f.data := by
  simp [colName, String.data_append]

theorem colName_data_succ (l f : String) (i : Nat) (h : i ≠ 0) :
    (colName l f i).data =
      l.data ++ '_' :: (f.data ++ '_' :: (Nat.repr (i + 1)).data) := by
  simp [colName, h, String.data_append]

/-- Decidable test used in the collision-freedom hypotheses: the string
has no final underscore-separated segment that is purely numeric (in the
sense of `str.isdigit`). -/
def noDigitTail (f : String) : Prop :=
  2 ≤ (splitUnders f).length → pyIsdigit ((splitUnders f).getLastD "") = false

instance (f : String) : Decidable (noDigitTail f) := by
  unfold noDigitTail
  infer_instance

theorem splitCh_ne_nil (c : Char) : ∀ l : List Char, splitCh c l ≠ [] := by
  intro l
  induction l with
  | nil => simp [splitCh]
  | cons x xs ih =>
    rw [splitCh]
    cases h : splitCh c xs with
    | nil => exact absurd h ih
    | cons g gs => by_cases hx : x = c <;> simp [hx]

theorem splitCh_no_occ (c : Char) :
    ∀ l : List Char, c ∉ l → splitCh c l = [l] := by
  intro l
  induction l with
  | nil => intro _; rfl
  | cons x xs ih =>
    intro h
    have hx : ¬ x = c := fun he => h (he ▸ List.mem_cons_self _ _)
    rw [splitCh, ih (fun hm => h (List.mem_cons_of_mem _ hm))]
    simp [hx]

theorem splitCh_append_tail (c : Char) :
    ∀ (xs d : List Char), c ∉ d →
      splitCh c (xs ++ c :: d) = splitCh c xs ++ [d] := by
  intro xs
  induction xs with
  | nil =>
    intro d hd
    simp only [List.nil_append]
    simp [splitCh, splitCh_no_occ c d hd]
  | cons x xs ih =>
    intro d hd
    simp only [List.cons_append]
    rw [splitCh, ih d hd]
    cases h : splitCh c xs with
    | nil => exact absurd h (splitCh_ne_nil c xs)
    | cons g gs =>
      rw [splitCh, h]
      by_cases hx : x = c <;> simp [hx]

theorem string_mk_data (s : String) : String.mk s.data = s := by
  cases s
  rfl

theorem splitUnders_append_tail (g d : String) (hd : '_' ∉ d.data) :
    splitUnders (g ++ "_" ++ d) = splitUnders g ++ [d] := by
  unfold splitUnders
  have hdata : (g ++ "_" ++ d).data = g.data ++ '_' :: d.data := by
    simp [String.data_append]
  rw [hdata, splitCh_append_tail _ _ _ hd, List.map_append]
  simp [string_mk_data]

theorem noDigitTail_no_ext (f : String) (hf : noDigitTail f) (g d : String)
    (hne : d.data ≠ []) (hdig : ∀ c ∈ d.data, c.isDigit = true) :
    f ≠ g ++ "_" ++ d := by
  intro he
  have hdu : '_' ∉ d.data := fun hm => by
    have := hdig _ hm
    simp [Char.isDigit] at this
  have hsplit : splitUnders f = splitUnders g ++ [d] := by
    rw [he]
    exact splitUnders_append_tail g d hdu
  have hlen : 2 ≤ (splitUnders f).length := by
    rw [hsplit, List.length_append]
    have := splitCh_ne_nil '_' g.data
    have : 1 ≤ (splitUnders g).length := by
      unfold splitUnders
      rw [List.length_map]
      cases h : splitCh '_' g.data with
      | nil => exact absurd h (splitCh_ne_nil _ _)
      | cons a l => simp
    simpa using Nat.add_le_add this (le_refl 1)
  have hlast : (splitUnders f).getLastD "" = d := by
    rw [hsplit]
    simp [List.getLastD_concat]
  have hfd := hf hlen
  rw [hlast] at hfd
  unfold pyIsdigit at hfd
  have hall : d.data.all Char.isDigit = true := by
    rw [List.all_eq_true]
    intro c hc
    exact hdig c hc
  have hEm : d.data.isEmpty = false := by
    cases hD : d.data with
    | nil => exact absurd hD hne
    | cons a l => rfl
  rw [hEm, hall] at hfd
  simp at hfd

theorem colName_inj (l l' f f' : String) (i i' : Nat)
    (hl : noUnd l) (hl' : noUnd l')
    (hf : noDigitTail f) (hf' : noDigitTail f')
    (h : colName l f i = colName l' f' i') :
    l = l' ∧ f = f' ∧ i = i' := by
  have hd := congrArg String.data h
  by_cases hi : i = 0 <;> by_cases hi' : i' = 0
  · subst hi; subst hi'
    rw [colName_data_zero, colName_data_zero] at hd
    have := append_underscore_inj _ _ _ _ hl hl' hd
    exact ⟨String.ext this.1, String.ext this.2, rfl⟩
  · subst hi
    rw [colName_data_zero, colName_data_succ _ _ _ hi'] at hd
    have h2 := append_underscore_inj _ _ _ _ hl hl' hd
    have hfe : f = f' ++ "_" ++ Nat.repr (i' + 1) := by
      apply String.ext
      simp [String.data_append, h2.2]
    exact absurd hfe (noDigitTail_no_ext f hf f' (Nat.repr (i' + 1))
      (repr_ne_nil _) (repr_all_digit _))
  · subst hi'
    rw [colName_data_succ _ _ _ hi, colName_data_zero] at hd
    have h2 := append_underscore_inj _ _ _ _ hl hl' hd
    have hfe : f' = f ++ "_" ++ Nat.repr (i + 1) := by
      apply String.ext
      simp [String.data_append, h2.2.symm]
    exact absurd hfe (noDigitTail_no_ext f' hf' f (Nat.repr (i + 1))
      (repr_ne_nil _) (repr_all_digit _))
  · rw [colName_data_succ _ _ _ hi, colName_data_succ _ _ _ hi'] at hd
    have h2 := append_underscore_inj _ _ _ _ hl hl' hd
    have h3 := append_underscore_inj_right _ _ _ _
      (underscore_not_mem_repr (i + 1)) (underscore_not_mem_repr (i' + 1)) h2.2
    have hii : i = i' := by
      have := repr_injective (String.ext h3.2 :
        Nat.repr (i + 1) = Nat.repr (i' + 1))
      omega
    exact ⟨String.ext h2.1, String.ext h3.1, hii⟩

/-! ### Split / join round trip and dictionary bridges -/

/-- Character-level counterpart of `joinUnders`. -/
def joinData : List (List Char) → List Char
  | [] => []
  | [x] => x
  | x :: y :: xs => x ++ '_' :: joinData (y :: xs)

theorem joinUnders_map_mk (l : List (List Char)) :
    (joinUnders (l.map String.mk)).data = joinData l := by
  induction l with
  | nil => rfl
  | cons x l ih =>
    cases l with
    | nil => rfl
    | cons y xs =>
      simp only [List.map_cons, joinUnders, joinData, String.data_append]
      rw [← List.map_cons, ih]
      simp

theorem joinData_splitCh (l : List Char) :
    joinData (splitCh '_' l) = l := by
  induction l with
  | nil => rfl
  | cons x xs ih =>
    rw [splitCh]
    cases h : splitCh '_' xs with
    | nil => exact absurd h (splitCh_ne_nil _ _)
    | cons g gs =>
      rw [h] at ih
      by_cases hx : x = '_'
      · subst hx
        simp only [if_pos rfl, joinData]
        cases gs with
        | nil =>
          simp only [joinData] at ih
          simp [joinData, ih]
        | cons h2 t2 =>
          simp only [joinData] at ih
          simp [joinData, ih]
      · simp only [if_neg hx]
        cases gs with
        | nil =>
          simp only [joinData] at ih
          simp [joinData, ih]
        | cons h2 t2 =>
          simp only [joinData] at ih ⊢
          simp [← ih]

theorem joinUnders_splitUnders (s : String) :
    joinUnders (splitUnders s) = s := by
  apply String.ext
  rw [splitUnders, joinUnders_map_mk, joinData_splitCh]

theorem splitCh_append (c : Char) :
    ∀ (xs ys : List Char), splitCh c (xs ++ c :: ys) =
      splitCh c xs ++ splitCh c ys := by
  intro xs
  induction xs with
  | nil =>
    intro ys
    rw [List.nil_append]
    cases h : splitCh c ys with
    | nil => exact absurd h (splitCh_ne_nil _ _)
    | cons g gs => simp [splitCh, h]
  | cons x xs ih =>
    intro ys
    rw [List.cons_append, splitCh, ih ys]
    cases h : splitCh c xs with
    | nil => exact absurd h (splitCh_ne_nil _ _)
    | cons g gs =>
      rw [splitCh, h]
      by_cases hx : x = c <;> simp [hx]

theorem singleton_infix_iff (a : Char) (l : List Char) :
    [a] <:+: l ↔ a ∈ l := by
  constructor
  · rintro ⟨s, t, rfl⟩
    simp
  · intro h
    obtain ⟨s, t, rfl⟩ := List.append_of_mem h
    exact ⟨s, t, by simp⟩

theorem strHas_underscore_iff (s : String) :
    strHas s "_" = true ↔ '_' ∈ s.data := by
  unfold strHas
  rw [decide_eq_true_iff]
  exact singleton_infix_iff _ _

theorem splitUnders_length_ge2 {s : String} (h : '_' ∈ s.data) :
    2 ≤ (splitUnders s).length := by
  obtain ⟨xs, ys, he⟩ := List.append_of_mem h
  unfold splitUnders
  rw [he, splitCh_append, List.length_map, List.length_append]
  have h1 : 1 ≤ (splitCh '_' xs).length := by
    cases hx : splitCh '_' xs with
    | nil => exact absurd hx (splitCh_ne_nil _ _)
    | cons a t => simp
  have h2 : 1 ≤ (splitCh '_' ys).length := by
    cases hy : splitCh '_' ys with
    | nil => exact absurd hy (splitCh_ne_nil _ _)
    | cons a t => simp
  omega

theorem joinUnders_concat (mid : List String) (last : String)
    (h : mid ≠ []) :
    joinUnders (mid ++ [last]) = joinUnders mid ++ "_" ++ last := by
  induction mid with
  | nil => exact absurd rfl h
  | cons x xs ih =>
    cases xs with
    | nil => rfl
    | cons y t =>
      calc joinUnders ((x :: y :: t) ++ [last])
          = x ++ "_" ++ joinUnders ((y :: t) ++ [last]) := rfl
        _ = x ++ "_" ++ (joinUnders (y :: t) ++ "_" ++ last) := by
            rw [ih (by simp)]
        _ = joinUnders (x :: y :: t) ++ "_" ++ last := by
            simp [joinUnders, String.append_assoc]

theorem dictSet_mem_cases {α : Type} (d : List (String × α)) (k : String)
    (v : α) (p : String × α) (h : p ∈ dictSet d k v) :
    p ∈ d ∨ p = (k, v) := by
  unfold dictSet at h
  by_cases hm : dictMem d k
  · rw [if_pos hm] at h
    obtain ⟨q, hq, hpe⟩ := List.mem_map.1 h
    by_cases hqk : q.1 = k
    · right
      rw [← hpe]
      simp [hqk]
    · left
      rw [← hpe]
      simpa [hqk] using hq
  · rw [if_neg hm] at h
    rcases List.mem_append.1 h with h | h
    · exact Or.inl h
    · right
      simpa using h

theorem identityMap_pairs (sel : List String) :
    ∀ p ∈ identityMap sel, p.1 = p.2 := by
  unfold identityMap
  suffices h : ∀ (acc : List (String × String)), (∀ p ∈ acc, p.1 = p.2) →
      ∀ p ∈ sel.foldl (fun d f => dictSet d f f) acc, p.1 = p.2 by
    exact h [] (by simp)
  induction sel with
  | nil => intro acc hacc p hp; exact hacc p hp
  | cons f fs ih =>
    intro acc hacc p hp
    refine ih (dictSet acc f f) ?_ p hp
    intro q hq
    rcases dictSet_mem_cases _ _ _ _ hq with h | h
    · exact hacc q h
    · rw [h]

theorem dictFind?_mem {α : Type} (d : List (String × α)) (k : String)
    (v : α) (h : dictFind? d k = some v) : (k, v) ∈ d := by
  induction d with
  | nil => exact absurd h (by simp [dictFind?])
  | cons p d ih =>
    unfold dictFind? at h
    by_cases hp : p.1 = k
    · rw [if_pos hp] at h
      have hv : p.2 = v := by injection h
      have hkv : (k, v) = p := by
        rw [← hp, ← hv]
      rw [hkv]
      exact List.mem_cons_self _ _
    · rw [if_neg hp] at h
      exact List.mem_cons_of_mem _ (ih h)

theorem dictMem_isSome {α : Type} (d : List (String × α)) (k : String)
    (h : dictMem d k = true) : ∃ v, dictFind? d k = some v := by
  induction d with
  | nil => simp [dictMem] at h
  | cons p d ih =>
    unfold dictMem at h
    by_cases hp : p.1 = k
    · exact ⟨p.2, by simp [dictFind?, hp]⟩
    · simp only [hp] at h
      rw [show (decide False || dictMem d k) = dictMem d k from by simp] at h
      obtain ⟨v, hv⟩ := ih h
      exact ⟨v, by simp [dictFind?, hp, hv]⟩

theorem identityMap_get (sel : List String) (k : String)
    (h : dictMem (identityMap sel) k = true) :
    dictGet (identityMap sel) k "" = k := by
  obtain ⟨v, hv⟩ := dictMem_isSome _ _ h
  have := identityMap_pairs sel (k, v) (dictFind?_mem _ _ _ hv)
  simp only [dictGet, hv, Option.getD_some]
  exact this.symm

/-! ### Structure of the column renamer -/

theorem splitUnders_head_tail (col : String) (hu : strHas col "_" = true) :
    ∃ p0 rest, splitUnders col = p0 :: rest ∧ rest ≠ [] ∧
      col = p0 ++ "_" ++ joinUnders rest := by
  have hmem : '_' ∈ col.data := (strHas_underscore_iff col).1 hu
  have hlen2 : 2 ≤ (splitUnders col).length := splitUnders_length_ge2 hmem
  cases h : splitUnders col with
  | nil => rw [h] at hlen2; simp at hlen2
  | cons p0 rest =>
    rw [h] at hlen2
    cases rest with
    | nil => simp at hlen2
    | cons r1 rt =>
      refine ⟨p0, r1 :: rt, rfl, by simp, ?_⟩
      conv_lhs => rw [← joinUnders_splitUnders col, h]
      rfl

theorem append_underscore_ne_empty (a b : String) : a ++ "_" ++ b ≠ "" := by
  intro h
  have := congrArg String.data h
  simp [String.data_append] at this

theorem renameCol_identity (sel : List String) (col : String) :
    renameCol (identityMap sel) col = col := by
  unfold renameCol
  by_cases hu : strHas col "_"
  · obtain ⟨p0, rest, hsp, hne, hcol⟩ := splitUnders_head_tail col hu
    have hlen2 : 2 ≤ (splitUnders col).length := by
      rw [hsp]
      cases rest with
      | nil => exact absurd rfl hne
      | cons r1 rt => simp
    rw [if_pos hu, hsp]
    simp only [List.headD_cons]
    rw [if_pos (hsp ▸ hlen2)]
    by_cases hdg : 3 ≤ (p0 :: rest).length ∧
        pyIsdigit ((p0 :: rest).getLastD "")
    · rw [if_pos hdg]
      simp only
      rcases List.eq_nil_or_concat rest with hre | ⟨mid, lastE, hre⟩
      · exact absurd hre hne
      rw [List.concat_eq_append] at hre
      have hmid : mid ≠ [] := by
        intro hm
        rw [hre, hm] at hdg
        simp at hdg
      have hdrop : ((p0 :: rest).drop 1).dropLast = mid := by
        rw [hre]
        simp [List.dropLast_concat]
      have hlastD : (p0 :: rest).getLastD "" = lastE := by
        rw [List.getLastD_cons, hre, List.getLastD_concat]
      have hcol2 : col = p0 ++ "_" ++ (joinUnders mid ++ "_" ++ lastE) := by
        rw [hcol, hre, joinUnders_concat mid lastE hmid]
      rw [hdrop, hlastD]
      by_cases hb : dictMem (identityMap sel) (joinUnders mid)
      · rw [if_pos hb, identityMap_get _ _ hb]
        have hs : p0 ++ "_" ++ joinUnders mid ++ ("_" ++ lastE) = col := by
          rw [hcol2]
          simp [String.append_assoc]
        rw [hs]
        by_cases hc0 : col = "" <;> simp [hc0]
      · rw [if_neg hb]
        by_cases hc : dictMem (identityMap sel) col
        · rw [if_pos hc, identityMap_get _ _ hc]
          by_cases hc0 : col = "" <;> simp [hc0]
        · rw [if_neg hc]
    · rw [if_neg hdg]
      simp only
      have hdrop : (p0 :: rest).drop 1 = rest := rfl
      rw [hdrop]
      by_cases hb : dictMem (identityMap sel) (joinUnders rest)
      · rw [if_pos hb, identityMap_get _ _ hb]
        have hs : p0 ++ "_" ++ joinUnders rest ++ "" = col := by
          rw [hcol]
          simp
        rw [hs]
        by_cases hc0 : col = "" <;> simp [hc0]
      · rw [if_neg hb]
        by_cases hc : dictMem (identityMap sel) col
        · rw [if_pos hc, identityMap_get _ _ hc]
          by_cases hc0 : col = "" <;> simp [hc0]
        · rw [if_neg hc]
  · rw [if_neg hu]
    simp only
    by_cases hc : dictMem (identityMap sel) col
    · rw [if_pos hc, identityMap_get _ _ hc]
      by_cases hc0 : col = "" <;> simp [hc0]
    · rw [if_neg hc]

theorem dictFind?_eq_get_of_mem {α : Type} [Inhabited α]
    (m : List (String × α)) (k : String) (dflt : α)
    (h : dictMem m k = true) :
    dictFind? m k = some (dictGet m k dflt) := by
  obtain ⟨v, hv⟩ := dictMem_isSome _ _ h
  rw [hv]
  simp [dictGet, hv]

/-- Modelled from the claim statement of the renamer, amended only where
the code forces it: a column containing an underscore is split on
underscores, the first segment is the language prefix, a purely numeric
last segment is an index suffix only when there are at least three
segments (this guard is the amendment), the joined middle segments are
the base field (otherwise everything after the first segment is), a
mapped base yields `{language}_{mapped}{suffix}`, otherwise a mapping of
the whole name applies (ignored when the replacement is the empty
string), otherwise the name is unchanged. -/
def renameColDescribed (m : List (String × String)) (col : String) : String :=
  if strHas col "_" then
    let parts := splitUnders col
    let lang := parts.headD ""
    if 3 ≤ parts.length ∧ pyIsdigit (parts.getLastD "") then
      match dictFind? m (joinUnders ((parts.drop 1).dropLast)) with
      | some nm => lang ++ "_" ++ nm ++ "_" ++ parts.getLastD ""
      | none =>
        match dictFind? m col with
        | some nm => if nm = "" then col else nm
        | none => col
    else
      match dictFind? m (joinUnders (parts.drop 1)) with
      | some nm => lang ++ "_" ++ nm
      | none =>
        match dictFind? m col with
        | some nm => if nm = "" then col else nm
        | none => col
  else
    match dictFind? m col with
    | some nm => if nm = "" then col else nm
    | none => col

/-- Modelled from the claim statement verbatim (not amended): the claim
asserts the numeric-suffix treatment for every column whose last
underscore segment is purely numeric, with no requirement of at least
three segments. -/
def renameColClaimed (m : List (String × String)) (col : String) : String :=
  if strHas col "_" then
    let parts := splitUnders col
    let lang := parts.headD ""
    if pyIsdigit (parts.getLastD "") then
      match dictFind? m (joinUnders ((parts.drop 1).dropLast)) with
      | some nm => lang ++ "_" ++ nm ++ "_" ++ parts.getLastD ""
      | none =>
        match dictFind? m col with
        | some nm => nm
        | none => col
    else
      match dictFind? m (joinUnders (parts.drop 1)) with
      | some nm => lang ++ "_" ++ nm
      | none =>
        match dictFind? m col with
        | some nm => nm
        | none => col
  else
    match dictFind? m col with
    | some nm => nm
    | none => col

theorem renameCol_eq_described (m : List (String × String)) (col : String) :
    renameCol m col = renameColDescribed m col := by
  unfold renameCol renameColDescribed
  by_cases hu : strHas col "_"
  · obtain ⟨p0, rest, hsp, hne, hcol⟩ := splitUnders_head_tail col hu
    have hlen2 : 2 ≤ (splitUnders col).length := by
      rw [hsp]
      cases rest with
      | nil => exact absurd rfl hne
      | cons r1 rt => simp
    rw [if_pos hu, if_pos hu, hsp]
    simp only [List.headD_cons]
    rw [if_pos (hsp ▸ hlen2)]
    by_cases hdg : 3 ≤ (p0 :: rest).length ∧
        pyIsdigit ((p0 :: rest).getLastD "")
    · rw [if_pos hdg, if_pos hdg]
      simp only
      by_cases hb : dictMem m (joinUnders (((p0 :: rest).drop 1).dropLast))
      · rw [if_pos hb, dictFind?_eq_get_of_mem _ _ "" hb]
        have hs : p0 ++ "_" ++
            dictGet m (joinUnders (((p0 :: rest).drop 1).dropLast)) "" ++
            ("_" ++ (p0 :: rest).getLastD "") ≠ "" := by
          intro h
          have := congrArg String.data h
          simp [String.data_append] at this
        simp only [if_neg hs]
        simp [String.append_assoc]
      · rw [if_neg hb, dictFind?_eq_none_of_not_mem (by simpa using hb)]
        by_cases hc : dictMem m col
        · rw [if_pos hc, dictFind?_eq_get_of_mem _ _ "" hc]
        · rw [if_neg hc, dictFind?_eq_none_of_not_mem (by simpa using hc)]
    · rw [if_neg hdg, if_neg hdg]
      simp only
      by_cases hb : dictMem m (joinUnders ((p0 :: rest).drop 1))
      · rw [if_pos hb, dictFind?_eq_get_of_mem _ _ "" hb]
        have hs : p0 ++ "_" ++
            dictGet m (joinUnders ((p0 :: rest).drop 1)) "" ++ "" ≠ "" := by
          intro h
          have := congrArg String.data h
          simp [String.data_append] at this
        simp only [if_neg hs]
        simp
      · rw [if_neg hb, dictFind?_eq_none_of_not_mem (by simpa using hb)]
        by_cases hc : dictMem m col
        · rw [if_pos hc, dictFind?_eq_get_of_mem _ _ "" hc]
        · rw [if_neg hc, dictFind?_eq_none_of_not_mem (by simpa using hc)]
  · rw [if_neg hu, if_neg hu]
    simp only
    by_cases hc : dictMem m col
    · rw [if_pos hc, dictFind?_eq_get_of_mem _ _ "" hc]
    · rw [if_neg hc, dictFind?_eq_none_of_not_mem (by simpa using hc)]

/-! ### Kept term groups: the deduplication of the extractor -/

/-- The term groups that survive the skip conditions of
`_extract_term_info`: a group is kept exactly when a term element is
found, its trimmed text is nonempty, and the text was not already seen
in this language group. -/
def keptTermGroupsAux (ns : List (String × String)) :
    List Elem → List String → List Elem
  | [], _ => []
  | tg :: tgs, seen =>
    match termTextOf ns tg with
    | none => keptTermGroupsAux ns tgs seen
    | some t =>
      if t = "" ∨ t ∈ seen then keptTermGroupsAux ns tgs seen
      else tg :: keptTermGroupsAux ns tgs (t :: seen)

/-- Kept term groups of a language group, starting from no seen text. -/
def keptTermGroups (ns : List (String × String)) (tgs : List Elem) :
    List Elem :=
  keptTermGroupsAux ns tgs []

theorem extractTermsAux_eq_map (ns : List (String × String))
    (sel : List String) (lang : String) :
    ∀ (tgs : List Elem) (seen : List String),
      extractTermsAux ns sel lang tgs seen =
        (keptTermGroupsAux ns tgs seen).map (termRecordOf ns sel lang) := by
  intro tgs
  induction tgs with
  | nil => intro seen; rfl
  | cons tg tgs ih =>
    intro seen
    cases h : termTextOf ns tg with
    | none =>
      simp only [extractTermsAux, keptTermGroupsAux, h]
      exact ih seen
    | some t =>
      simp only [extractTermsAux, keptTermGroupsAux, h]
      by_cases hc : t = "" ∨ t ∈ seen
      · rw [if_pos hc, if_pos hc]
        exact ih seen
      · rw [if_neg hc, if_neg hc, List.map_cons, ih (t :: seen)]

theorem keptTermGroupsAux_filter (ns : List (String × String)) (t : String)
    (ht : t ≠ "") :
    ∀ (tgs : List Elem) (seen : List String),
      (keptTermGroupsAux ns tgs seen).filter
          (fun tg => termTextOf ns tg = some t) =
        if t ∈ seen then []
        else (tgs.filter (fun tg => termTextOf ns tg = some t)).take 1 := by
  intro tgs
  induction tgs with
  | nil =>
    intro seen
    by_cases hs : t ∈ seen <;> simp [keptTermGroupsAux, hs]
  | cons tg tgs ih =>
    intro seen
    cases h : termTextOf ns tg with
    | none =>
      have hnt : ¬ (termTextOf ns tg = some t) := by simp [h]
      simp only [keptTermGroupsAux, h]
      rw [ih seen]
      simp [List.filter_cons, hnt]
    | some u =>
      simp only [keptTermGroupsAux, h]
      by_cases hc : u = "" ∨ u ∈ seen
      · rw [if_pos hc, ih seen]
        by_cases hut : u = t
        · subst hut
          have hus : u ∈ seen := by
            rcases hc with h0 | hs
            · exact absurd h0 ht
            · exact hs
          simp [hus]
        · have hnt : ¬ (termTextOf ns tg = some t) := by simp [h, hut]
          simp [List.filter_cons, hnt]
      · rw [if_neg hc]
        push_neg at hc
        by_cases hut : u = t
        · subst hut
          have hs : u ∉ seen := hc.2
          simp [List.filter_cons, h, ih (u :: seen), hs]
        · have hnt : ¬ (termTextOf ns tg = some t) := by simp [h, hut]
          simp only [List.filter_cons, hnt, ih (u :: seen), List.mem_cons]
          have hiff : (t = u ∨ t ∈ seen) ↔ (t ∈ seen) := by
            constructor
            · rintro (hh | hh)
              · exact absurd hh.symm hut
              · exact hh
            · exact Or.inr
          simp [hnt, hiff]

/-! ### Dictionary folding with distinct keys -/

theorem foldl_dictSet_nodup {α : Type} :
    ∀ (pairs acc : List (String × α)),
      ((acc ++ pairs).map Prod.fst).Nodup →
      pairs.foldl (fun d p => dictSet d p.1 p.2) acc = acc ++ pairs := by
  intro pairs
  induction pairs with
  | nil => intro acc _; simp
  | cons p ps ih =>
    intro acc hnd
    have hkey : p.1 ∉ acc.map Prod.fst := by
      intro hmem
      rw [List.map_append, List.nodup_append] at hnd
      exact hnd.2.2 hmem (by simp)
    have hmemF : dictMem acc p.1 = false := by
      rw [← Bool.not_eq_true, dictMem_iff]
      intro ⟨q, hq, hqk⟩
      exact hkey (List.mem_map.2 ⟨q, hq, hqk⟩)
    have hset : dictSet acc p.1 p.2 = acc ++ [p] := by
      unfold dictSet
      rw [hmemF]
      simp
    rw [List.foldl_cons, hset, ih (acc ++ [p]) (by simpa using hnd)]
    simp

theorem flattenRows_eq_map (sel : List String)
    (entries : List (String × EntryData)) :
    flattenRows sel entries =
      entries.map (fun p => rowOfEntry sel p.1 p.2) := by
  unfold flattenRows
  suffices h : ∀ acc, entries.foldl
      (fun rows p => rows ++ [rowOfEntry sel p.1 p.2]) acc =
      acc ++ entries.map (fun p => rowOfEntry sel p.1 p.2) by
    simpa using h []
  induction entries with
  | nil => intro acc; simp
  | cons p ps ih =>
    intro acc
    rw [List.foldl_cons, ih]
    simp

/-! ### Invariants of the language map and of the base row -/

theorem addLangGroup_discard (ns : List (String × String))
    (sel : List String)
    (acc : List (String × List (List (String × String)))) (lg : Elem)
    (h : (extractTermInfo ns sel lg).1 = "" ∨
      (extractTermInfo ns sel lg).2 = []) :
    addLangGroup ns sel acc lg = acc := by
  unfold addLangGroup
  rw [if_neg]
  simp only [not_and_or, Decidable.not_not]
  exact h

theorem buildLanguages_nonempty (ns : List (String × String))
    (sel : List String) (entry : Elem) :
    ∀ p ∈ buildLanguages ns sel entry, p.1 ≠ "" ∧ p.2 ≠ [] := by
  unfold buildLanguages
  suffices h : ∀ (lgs : List Elem)
      (acc : List (String × List (List (String × String)))),
      (∀ p ∈ acc, p.1 ≠ "" ∧ p.2 ≠ []) →
      ∀ p ∈ lgs.foldl (addLangGroup ns sel) acc, p.1 ≠ "" ∧ p.2 ≠ [] by
    exact h _ [] (by simp)
  intro lgs
  induction lgs with
  | nil => intro acc hacc p hp; exact hacc p hp
  | cons lg lgs ih =>
    intro acc hacc p hp
    refine ih _ ?_ p hp
    intro q hq
    unfold addLangGroup at hq
    by_cases hc : (extractTermInfo ns sel lg).1 ≠ "" ∧
        (extractTermInfo ns sel lg).2 ≠ []
    · rw [if_pos hc] at hq
      rcases dictSet_mem_cases _ _ _ _ hq with h | h
      · exact hacc q h
      · rw [h]
        exact hc
    · rw [if_neg hc] at hq
      exact hacc q hq

theorem rowBase_keys (sel : List String) (eid : String)
    (efields : List (String × String)) :
    ∀ k, dictMem (rowBase sel eid efields) k = true →
      k = "entry_id" ∨ (k ∈ sel ∧ strStarts k "entry_" = true) := by
  unfold rowBase
  suffices h : ∀ (fs : List String) (r : List (String × String)),
      (∀ k, dictMem r k = true →
        k = "entry_id" ∨ (k ∈ sel ∧ strStarts k "entry_" = true)) →
      (∀ f ∈ fs, f ∈ sel) →
      ∀ k, dictMem (fs.foldl (fun r f =>
          if strStarts f "entry_" ∧ f ≠ "entry_id" then
            dictSet r f (dictGet efields f "") else r) r) k = true →
        k = "entry_id" ∨ (k ∈ sel ∧ strStarts k "entry_" = true) by
    apply h sel _ ?_ (fun f hf => hf)
    intro k hk
    by_cases hsel : "entry_id" ∈ sel
    · rw [if_pos hsel] at hk
      left
      have : dictMem ([] : List (String × String)) k = true ∨ "entry_id" = k :=
        dictKeys_set_subset _ _ _ _ hk
      rcases this with h | h
      · simp [dictMem] at h
      · exact h.symm
    · rw [if_neg hsel] at hk
      simp [dictMem] at hk
  intro fs
  induction fs with
  | nil => intro r hr _ k hk; exact hr k hk
  | cons f fs ih =>
    intro r hr hfs k hk
    rw [List.foldl_cons] at hk
    refine ih _ ?_ (fun g hg => hfs g (List.mem_cons_of_mem _ hg)) k hk
    intro k' hk'
    by_cases hc : strStarts f "entry_" ∧ f ≠ "entry_id"
    · rw [if_pos hc] at hk'
      rcases dictKeys_set_subset _ _ _ _ hk' with h | h
      · exact hr k' h
      · right
        rw [← h]
        exact ⟨hfs f (List.mem_cons_self _ _), hc.1⟩
    · rw [if_neg hc] at hk'
      exact hr k' hk'

/-! ### Destructuring the language/term writes -/

theorem pyEnumFrom_mem {α : Type} :
    ∀ (l : List α) (n : Nat) (q : Nat × α), q ∈ pyEnumFrom n l →
      ∃ j, ∃ hj : j < l.length, q = (n + j, l.get ⟨j, hj⟩) := by
  intro l
  induction l with
  | nil => intro n q hq; simp [pyEnumFrom] at hq
  | cons x xs ih =>
    intro n q hq
    rcases List.mem_cons.1 hq with h | h
    · exact ⟨0, by simp, by simpa using h⟩
    · obtain ⟨j, hj, he⟩ := ih (n + 1) q h
      exact ⟨j + 1, by simpa using hj, by simpa [Nat.add_assoc, Nat.add_comm 1 j] using he⟩

theorem pyEnumFrom_mem_of_lt {α : Type} :
    ∀ (l : List α) (n j : Nat) (hj : j < l.length),
      (n + j, l.get ⟨j, hj⟩) ∈ pyEnumFrom n l := by
  intro l
  induction l with
  | nil => intro n j hj; simp at hj
  | cons x xs ih =>
    intro n j hj
    cases j with
    | zero => simp [pyEnumFrom]
    | succ j =>
      have := ih (n + 1) j (by simpa using hj)
      rw [pyEnumFrom]
      refine List.mem_cons_of_mem _ ?_
      simpa [Nat.add_assoc, Nat.add_comm 1 j] using this

theorem selNonEntry_mem (sel : List String) (f : String) :
    f ∈ selNonEntry sel ↔ f ∈ sel ∧ isEntryLevel f = false := by
  unfold selNonEntry
  rw [List.mem_filter]
  simp

theorem entryWrites_mem_intro (sel : List String)
    (langs : List (String × List (List (String × String))))
    (lang : String) (ts : List (List (String × String)))
    (f : String) (i : Nat) (hml : (lang, ts) ∈ langs)
    (hi : i < ts.length) (hf : f ∈ sel) (hfe : isEntryLevel f = false) :
    (colName lang f i, dictGet (ts.get ⟨i, hi⟩) f "") ∈ entryWrites sel langs := by
  unfold entryWrites
  rw [List.mem_flatMap]
  refine ⟨(lang, ts), hml, ?_⟩
  rw [List.mem_flatMap]
  refine ⟨(i, ts.get ⟨i, hi⟩), ?_, ?_⟩
  · have := pyEnumFrom_mem_of_lt ts 0 i hi
    simpa [pyEnum] using this
  · rw [List.mem_map]
    exact ⟨f, (selNonEntry_mem sel f).2 ⟨hf, hfe⟩, rfl⟩

theorem entryWrites_mem_elim (sel : List String)
    (langs : List (String × List (List (String × String))))
    (w : String × String) (hw : w ∈ entryWrites sel langs) :
    ∃ l' ts' f' i', (l', ts') ∈ langs ∧ f' ∈ sel ∧
      isEntryLevel f' = false ∧ ∃ hi' : i' < ts'.length,
      w = (colName l' f' i', dictGet (ts'.get ⟨i', hi'⟩) f' "") := by
  unfold entryWrites at hw
  rw [List.mem_flatMap] at hw
  obtain ⟨p, hp, hw⟩ := hw
  rw [List.mem_flatMap] at hw
  obtain ⟨q, hq, hw⟩ := hw
  rw [List.mem_map] at hw
  obtain ⟨f', hf', he⟩ := hw
  obtain ⟨j, hj, hq'⟩ := pyEnumFrom_mem p.2 0 q (by simpa [pyEnum] using hq)
  rw [(selNonEntry_mem sel f')] at hf'
  refine ⟨p.1, p.2, f', j, hp, hf'.1, hf'.2, hj, ?_⟩
  rw [← he, hq']
  simp

theorem assoc_nodup_unique {α : Type}
    (d : List (String × α)) (hnd : (d.map Prod.fst).Nodup)
    (k : String) (a b : α) (ha : (k, a) ∈ d) (hb : (k, b) ∈ d) : a = b := by
  induction d with
  | nil => simp at ha
  | cons p d ih =>
    rw [List.map_cons, List.nodup_cons] at hnd
    rcases List.mem_cons.1 ha with h1 | h1 <;>
      rcases List.mem_cons.1 hb with h2 | h2
    · rw [← h1] at h2
      injection h2.symm with _ hv
    · exfalso
      apply hnd.1
      rw [List.mem_map]
      exact ⟨(k, b), h2, by rw [← h1]⟩
    · exfalso
      apply hnd.1
      rw [List.mem_map]
      exact ⟨(k, a), h1, by rw [← h2]⟩
    · exact ih hnd.2 h1 h2

theorem strStarts_decompose (k p : String) (h : strStarts k p = true) :
    ∃ r, k.data = p.data ++ r := by
  unfold strStarts at h
  rw [List.isPrefixOf_iff_prefix] at h
  obtain ⟨t, ht⟩ := h
  exact ⟨t, ht.symm⟩

theorem colName_ne_entry_key (lang f : String) (i : Nat) (k : String)
    (hlang : noUnd lang) (hle : lang ≠ "entry")
    (h : k = "entry_id" ∨ strStarts k "entry_" = true) :
    colName lang f i ≠ k := by
  intro he
  have hk : ∃ r, k.data = "entry".data ++ '_' :: r := by
    rcases h with h | h
    · exact ⟨"id".data, by rw [h]; rfl⟩
    · obtain ⟨r, hr⟩ := strStarts_decompose k "entry_" h
      exact ⟨r, by rw [hr]; rfl⟩
  obtain ⟨r, hr⟩ := hk
  have hdata : (colName lang f i).data = k.data := congrArg String.data he
  have hcd : ∃ x, (colName lang f i).data = lang.data ++ '_' :: x := by
    by_cases hi : i = 0
    · exact ⟨f.data, by rw [hi, colName_data_zero]⟩
    · exact ⟨f.data ++ '_' :: (Nat.repr (i + 1)).data,
        by rw [colName_data_succ _ _ _ hi]⟩
  obtain ⟨x, hx⟩ := hcd
  rw [hx, hr] at hdata
  have hent : noUnd "entry" := by decide
  have := append_underscore_inj _ _ _ _ hlang hent hdata
  exact hle (String.ext this.1)

theorem setAdd_self (s : List String) (x : String) : x ∈ setAdd s x := by
  unfold setAdd
  by_cases h : x ∈ s
  · rw [if_pos h]
    exact h
  · rw [if_neg h]
    simp

theorem setAdd_mono (s : List String) (x y : String) (h : y ∈ s) :
    y ∈ setAdd s x := by
  unfold setAdd
  by_cases hx : x ∈ s
  · rw [if_pos hx]
    exact h
  · rw [if_neg hx]
    exact List.mem_append_left _ h

/-! ### Sample documents used by the witnesses and counterexamples -/

/-- Term group with one `term` child carrying the given text. -/
def sampleTig (i : Nat) (t : String) : Elem :=
  Elem.mk (10 + i) "tig" [] none [Elem.mk (20 + i) "term" [] (some t) []]

/-- Language group with `xml:lang="en"` and three term groups whose texts
are `cat`, `cat`, `feline`. -/
def sampleLang : Elem :=
  Elem.mk 5 "langSet" [("xml:lang", "en")] none
    [sampleTig 1 "cat", sampleTig 2 "cat", sampleTig 3 "feline"]

/-- Entry `E1` holding `sampleLang`. -/
def sampleEntry : Elem :=
  Elem.mk 4 "termEntry" [("id", "E1")] none [sampleLang]

/-- Document with the single entry `sampleEntry`. -/
def sampleRoot : Elem :=
  Elem.mk 0 "tbx" [] none [sampleEntry]

/-- Document with two entries carrying the same id `E1`. -/
def dupRoot : Elem :=
  Elem.mk 0 "tbx" [] none
    [Elem.mk 1 "termEntry" [("id", "E1")] none [],
     Elem.mk 2 "termEntry" [("id", "E1")] none []]

/-! ### The claims -/

/-- Claim C8: field discovery never aborts — an error while sampling
(the only failure point of the sampled scan is the parse itself, modelled
by the `none` input) yields the fixed default field set — and on every
input, success or fallback, the discovered field set contains
`entry_id`, `language` and `term`. -/
theorem claim_C8 :
    (∀ p : Option Elem, "entry_id" ∈ scanAvailableFields p ∧
      "language" ∈ scanAvailableFields p ∧ "term" ∈ scanAvailableFields p) ∧
    scanAvailableFields none = defaultScanFields := by
  constructor
  · intro p
    cases p with
    | none => exact ⟨by decide, by decide, by decide⟩
    | some root =>
      unfold scanAvailableFields scanFieldsBody
      simp only [List.foldl_cons, List.foldl_nil]
      refine ⟨?_, ?_, setAdd_self _ _⟩
      · exact setAdd_mono _ _ _ (setAdd_mono _ _ _ (setAdd_self _ _))
      · exact setAdd_mono _ _ _ (setAdd_self _ _)
  · rfl

/-- Claim C9: an entry whose language map is empty still yields exactly
one row, equal to the entry-level base row, whose columns are only the
entry id and selected entry-level fields; the entry is not dropped: the
flattener emits its row, and emits exactly one row per stored entry. -/
theorem claim_C9 (sel : List String) (entries : List (String × EntryData))
    (eid : String) (ed : EntryData) (hmem : (eid, ed) ∈ entries)
    (hlang : ed.languages = []) :
    rowOfEntry sel eid ed = rowBase sel eid ed.entryFields ∧
    (∀ k, dictMem (rowOfEntry sel eid ed) k = true →
      k = "entry_id" ∨ (k ∈ sel ∧ strStarts k "entry_" = true)) ∧
    rowOfEntry sel eid ed ∈ flattenRows sel entries ∧
    (flattenRows sel entries).length = entries.length := by
  have hrow : rowOfEntry sel eid ed = rowBase sel eid ed.entryFields := by
    unfold rowOfEntry
    rw [if_pos (by rw [hlang]; rfl)]
  refine ⟨hrow, ?_, ?_, ?_⟩
  · intro k hk
    rw [hrow] at hk
    exact rowBase_keys sel eid ed.entryFields k hk
  · rw [flattenRows_eq_map, List.mem_map]
    exact ⟨(eid, ed), hmem, rfl⟩
  · rw [flattenRows_eq_map, List.length_map]

/-- Witness for C9 at a concrete entry with no language data. -/
theorem claim_C9_witness :
    rowOfEntry ["entry_id", "language", "term"] "E1" ⟨[], []⟩ =
      rowBase ["entry_id", "language", "term"] "E1" [] ∧
    rowOfEntry ["entry_id", "language", "term"] "E1" ⟨[], []⟩ ∈
      flattenRows ["entry_id", "language", "term"] [("E1", ⟨[], []⟩)] ∧
    (flattenRows ["entry_id", "language", "term"] [("E1", ⟨[], []⟩)]).length = 1 := by
  have h := claim_C9 ["entry_id", "language", "term"] [("E1", ⟨[], []⟩)]
    "E1" ⟨[], []⟩ (List.mem_singleton.mpr rfl) rfl
  exact ⟨h.1, h.2.2.1, h.2.2.2⟩

/-- Claim C10: a language group whose extraction yields an empty language
code or no term records changes nothing in the entry's language map
(its data is discarded entirely), and every recorded language map entry
has a nonempty code and at least one term record. -/
theorem claim_C10 (ns : List (String × String)) (sel : List String)
    (acc : List (String × List (List (String × String)))) (lg : Elem)
    (hdis : (extractTermInfo ns sel lg).1 = "" ∨
      (extractTermInfo ns sel lg).2 = []) (entry : Elem) :
    addLangGroup ns sel acc lg = acc ∧
    ∀ p ∈ (buildEntryData ns sel entry).languages, p.1 ≠ "" ∧ p.2 ≠ [] := by
  refine ⟨addLangGroup_discard ns sel acc lg hdis, ?_⟩
  intro p hp
  exact buildLanguages_nonempty ns sel entry p hp

/-- Witness for C10: a language group with no language attribute is
discarded, while the `en` group of the sample entry is recorded with its
nonempty term list. -/
theorem claim_C10_witness :
    addLangGroup [] ["term"] [] (Elem.mk 0 "langSet" [] none []) = [] ∧
    ("en", [[("term", "cat"), ("language", "en")],
            [("term", "feline"), ("language", "en")]]) ∈
      (buildEntryData [] ["term"] sampleEntry).languages ∧
    ("en" ≠ "" ∧ [[("term", "cat"), ("language", "en")],
                  [("term", "feline"), ("language", "en")]] ≠
      ([] : List (List (String × String)))) := by
  have hm : ("en", [[("term", "cat"), ("language", "en")],
      [("term", "feline"), ("language", "en")]]) ∈
      (buildEntryData [] ["term"] sampleEntry).languages := by decide
  refine ⟨(claim_C10 [] ["term"] [] (Elem.mk 0 "langSet" [] none [])
      (Or.inl (by decide)) sampleEntry).1, hm, ?_⟩
  exact (claim_C10 [] ["term"] [] (Elem.mk 0 "langSet" [] none [])
      (Or.inl (by decide)) sampleEntry).2 _ hm

/-- Claim C3: the extractor returns exactly one `TermRecord` per kept
term group, where a group is kept exactly when a term element is found,
its trimmed text is nonempty, and the text was not already seen in this
language group (`keptTermGroupsAux` is that condition verbatim); and for
any nonempty text the kept groups carrying that text are the first such
group only — so two term groups with identical trimmed text yield
exactly one record and the first occurrence wins. -/
theorem claim_C3 (ns : List (String × String)) (sel : List String)
    (lg : Elem) :
    extractTermInfo ns sel lg = (langCodeOf lg,
      (keptTermGroups ns (termGroupsOf ns lg)).map
        (termRecordOf ns sel (langCodeOf lg))) ∧
    ∀ t, t ≠ "" →
      (keptTermGroups ns (termGroupsOf ns lg)).filter
          (fun tg => termTextOf ns tg = some t) =
        ((termGroupsOf ns lg).filter
          (fun tg => termTextOf ns tg = some t)).take 1 := by
  constructor
  · simp only [extractTermInfo, keptTermGroups]
    rw [extractTermsAux_eq_map]
  · intro t ht
    unfold keptTermGroups
    rw [keptTermGroupsAux_filter ns t ht]
    simp

/-- Witness for C3 on the sample language group with term texts `cat`,
`cat`, `feline`: two records result, and the kept groups with text `cat`
are the first occurrence only. -/
theorem claim_C3_witness :
    extractTermInfo [] ["term"] sampleLang = ("en",
      (keptTermGroups [] (termGroupsOf [] sampleLang)).map
        (termRecordOf [] ["term"] "en")) ∧
    (keptTermGroups [] (termGroupsOf [] sampleLang)).filter
        (fun tg => termTextOf [] tg = some "cat") =
      ((termGroupsOf [] sampleLang).filter
        (fun tg => termTextOf [] tg = some "cat")).take 1 ∧
    (extractTermInfo [] ["term"] sampleLang).2 =
      [[("term", "cat"), ("language", "en")],
       [("term", "feline"), ("language", "en")]] := by
  have h := claim_C3 [] ["term"] sampleLang
  have hlang : langCodeOf sampleLang = "en" := by decide
  exact ⟨hlang ▸ h.1, h.2 "cat" (by decide), by decide⟩

/-- Claim C5: the auto-mode entry point (all discovered fields, sorted,
identity mapping) and the manual path in which the user answers `all`
and `keep` produce the same configuration, and hence identical column
names and row data from the engine. -/
theorem claim_C5 (root : Elem) :
    manualConfigAll (some root) = some (autoConfig (some root)) ∧
    (manualConfigAll (some root)).map
        (fun cfg => convertOut root cfg.1 cfg.2) =
      some (convertOut root (autoConfig (some root)).1
        (autoConfig (some root)).2) := by
  have hcfg : manualConfigAll (some root) = some (autoConfig (some root)) := rfl
  refine ⟨hcfg, ?_⟩
  rw [hcfg]
  rfl

/-- Claim C6: renaming with the identity field mapping changes nothing —
the renamed table (columns and rows) equals the table produced with no
mapping at all. -/
theorem map_self_of_id {β : Type} (f : β → β) (l : List β)
    (h : ∀ x ∈ l, f x = x) : l.map f = l := by
  induction l with
  | nil => rfl
  | cons x xs ih =>
    rw [List.map_cons, h x (List.mem_cons_self _ _),
      ih (fun y hy => h y (List.mem_cons_of_mem _ hy))]

theorem claim_C6 (sel : List String)
    (rows : List (List (String × String))) :
    applyMappings (identityMap sel) rows = applyMappings [] rows := by
  unfold applyMappings
  by_cases hid : (identityMap sel).isEmpty
  · rw [if_pos hid]
    rfl
  · rw [if_neg hid]
    simp only [List.isEmpty_nil, if_true]
    have hcols : (allColumns rows).map (renameCol (identityMap sel)) =
        allColumns rows :=
      map_self_of_id _ _ (fun c _ => renameCol_identity sel c)
    have hrows : rows.map
        (fun r => r.map (fun p => (renameCol (identityMap sel) p.1, p.2))) =
        rows := by
      apply map_self_of_id
      intro r _
      apply map_self_of_id
      intro p _
      rw [renameCol_identity sel p.1]
    rw [hcols, hrows]

theorem pyEnumFrom_length {α : Type} :
    ∀ (l : List α) (n : Nat), (pyEnumFrom n l).length = l.length := by
  intro l
  induction l with
  | nil => intro n; rfl
  | cons x xs ih =>
    intro n
    rw [pyEnumFrom, List.length_cons, List.length_cons, ih]

/-- Counterexample to C1 as stated: a document with two `termEntry`
elements that carry the same id attribute produces a single row, because
`parse_tbx` stores entries in a dictionary keyed by the resolved id and
the second entry overwrites the first. -/
theorem claim_C1_counterexample :
    (termEntriesOf (registerNamespaces dupRoot) dupRoot).length = 2 ∧
    (flattenRows ["entry_id", "language", "term"]
      (parseEntries (registerNamespaces dupRoot)
        ["entry_id", "language", "term"] dupRoot)).length = 1 := by
  constructor
  · decide
  · decide

/-- Claim C1 (amended): when the resolved entry ids (the id attribute or
the synthesized `entry_<i>`) are pairwise distinct, the engine produces
exactly one row per entry element, and the rows are exactly the rows of
the entries in document order. -/
theorem claim_C1 (sel : List String) (root : Elem)
    (hnd : ((parseEntriesList (registerNamespaces root) sel root).map
      Prod.fst).Nodup) :
    flattenRows sel (parseEntries (registerNamespaces root) sel root) =
      (parseEntriesList (registerNamespaces root) sel root).map
        (fun p => rowOfEntry sel p.1 p.2) ∧
    (flattenRows sel
        (parseEntries (registerNamespaces root) sel root)).length =
      (termEntriesOf (registerNamespaces root) root).length := by
  have hpe : parseEntries (registerNamespaces root) sel root =
      parseEntriesList (registerNamespaces root) sel root := by
    unfold parseEntries
    rw [foldl_dictSet_nodup _ [] (by simpa using hnd)]
    rfl
  constructor
  · rw [hpe, flattenRows_eq_map]
  · rw [hpe, flattenRows_eq_map, List.length_map]
    unfold parseEntriesList
    rw [List.length_map, pyEnumFrom_length]

/-- Document with two entries carrying distinct ids `E1` and `E2`. -/
def twoRoot : Elem :=
  Elem.mk 0 "tbx" [] none
    [Elem.mk 1 "termEntry" [("id", "E1")] none [],
     Elem.mk 2 "termEntry" [("id", "E2")] none []]

/-- Witness for C1 on a two-entry document with distinct ids. -/
theorem claim_C1_witness :
    (flattenRows ["entry_id"]
      (parseEntries (registerNamespaces twoRoot) ["entry_id"] twoRoot)).length = 2 := by
  have h := claim_C1 ["entry_id"] twoRoot (by decide)
  rw [h.2]
  decide

/-- Counterexample to C7 as stated: on the column `en_2` (two segments,
purely numeric last segment) the claim mandates suffix treatment with
base field `""` and therefore no renaming under `{"2": "two"}`, but the
code treats the numeric segment as a suffix only when there are at least
three segments, takes `2` as the base field, and renames to `en_two`. -/
theorem claim_C7_counterexample :
    renameCol [("2", "two")] "en_2" = "en_two" ∧
    renameColClaimed [("2", "two")] "en_2" = "en_2" ∧
    renameCol [("2", "two")] "en_2" ≠ renameColClaimed [("2", "two")] "en_2" := by
  refine ⟨by decide, by decide, by decide⟩

/-- Claim C7 (amended): the renamer behaves exactly as described once
the numeric-suffix rule is restricted to columns with at least three
underscore-separated segments (and an empty replacement string is never
applied); in particular the mapping `{"term": "Headword"}` renames
`en_term`, `en_term_2`, `de_term` to `en_Headword`, `en_Headword_2`,
`de_Headword`. -/
theorem claim_C7 :
    (∀ (m : List (String × String)) (col : String),
      renameCol m col = renameColDescribed m col) ∧
    renameCol [("term", "Headword")] "en_term" = "en_Headword" ∧
    renameCol [("term", "Headword")] "en_term_2" = "en_Headword_2" ∧
    renameCol [("term", "Headword")] "de_term" = "de_Headword" := by
  refine ⟨renameCol_eq_described, by decide, by decide, by decide⟩

/-- Counterexample to C4 as stated: the two distinct (language, field,
index) combinations `("en", "termNote_status", 1)` and
`("en", "termNote_status_2", 0)` — both producible from discovered
fields, since `termNote` types are arbitrary strings — yield the same
column name, and in a row containing both writes the later value `B`
silently overwrites the earlier value `A`. -/
theorem claim_C4_counterexample :
    colName "en" "termNote_status" 1 = colName "en" "termNote_status_2" 0 ∧
    ("en", "termNote_status", (1 : Nat)) ≠ ("en", "termNote_status_2", (0 : Nat)) ∧
    dictFind? (rowOfEntry ["termNote_status", "termNote_status_2"] "E1"
      ⟨[], [("en",
        [[("termNote_status", "S1"), ("termNote_status_2", "A"), ("language", "en")],
         [("termNote_status", "B"), ("termNote_status_2", ""), ("language", "en")]])]⟩)
      "en_termNote_status_2" = some "B" := by
  refine ⟨by decide, by decide, by decide⟩

/-- Claim C4 (amended): within one entry, distinct (language, field,
index) combinations yield distinct column names provided the language
codes contain no underscore and no selected non-entry-level field ends
in a purely numeric underscore-separated segment; without those
restrictions the suffix scheme can collide (see the counterexample). -/
theorem claim_C4 (sel : List String) (ed : EntryData)
    (l l' f f' : String) (ts ts' : List (List (String × String)))
    (i i' : Nat)
    (hml : (l, ts) ∈ ed.languages) (hml' : (l', ts') ∈ ed.languages)
    (hi : i < ts.length) (hi' : i' < ts'.length)
    (hf : f ∈ sel) (hf' : f' ∈ sel)
    (hfe : isEntryLevel f = false) (hfe' : isEntryLevel f' = false)
    (hU : ∀ p ∈ ed.languages, noUnd p.1)
    (hD : ∀ g ∈ sel, isEntryLevel g = false → noDigitTail g)
    (hne : (l, f, i) ≠ (l', f', i')) :
    colName l f i ≠ colName l' f' i' := by
  intro he
  have h := colName_inj l l' f f' i i' (hU _ hml) (hU _ hml')
    (hD f hf hfe) (hD f' hf' hfe') he
  exact hne (by rw [h.1, h.2.1, h.2.2])

/-- Witness for C4 on a two-language entry. -/
theorem claim_C4_witness :
    colName "en" "term" 0 ≠ colName "de" "term" 0 :=
  claim_C4 ["term"]
    ⟨[], [("en", [[("term", "x")]]), ("de", [[("term", "y")]])]⟩
    "en" "de" "term" "term" [[("term", "x")]] [[("term", "y")]] 0 0
    (by decide) (by decide) (by decide) (by decide) (by decide) (by decide)
    (by decide) (by decide) (by decide) (by decide) (by decide)

/-- Counterexample to C2 as stated: for the entry below the language
`en` has `k = 1` deduplicated term record, yet the column
`{lang}_{field}_{k+1}` for the selected field `termNote_status` —
`en_termNote_status_2` — is created in the entry's row, because the
sibling selected field `termNote_status_2` produces the same string at
index 0. -/
theorem claim_C2_counterexample :
    ([[("termNote_status", "S1"), ("termNote_status_2", "A"),
       ("language", "en")]] : List (List (String × String))).length = 1 ∧
    dictMem (rowOfEntry ["termNote_status", "termNote_status_2"] "E1"
      ⟨[], [("en",
        [[("termNote_status", "S1"), ("termNote_status_2", "A"),
          ("language", "en")]])]⟩)
      (colName "en" "termNote_status" 1) = true := by
  refine ⟨by decide, by decide⟩

/-- Claim C2 (amended): provided the language codes of the entry contain
no underscore and differ from `entry`, the language keys are distinct,
and no selected non-entry-level field ends in a purely numeric
underscore-separated segment, the flattener stores the record at
0-based position `i` of a language's sequence under
`{language}_{field}` when `i = 0` and `{language}_{field}_{i+1}`
otherwise (`colName` is those formulas), the columns for positions
`0, …, k-1` are populated with the corresponding record's value, and no
`{lang}_{field}_{k+1}` column is created for the entry; without those
restrictions the suffix scheme can collide (see the counterexample). -/
theorem claim_C2 (sel : List String) (eid : String) (ed : EntryData)
    (lang : String) (ts : List (List (String × String))) (f : String)
    (hml : (lang, ts) ∈ ed.languages)
    (hnd : (ed.languages.map Prod.fst).Nodup)
    (hU : ∀ p ∈ ed.languages, noUnd p.1 ∧ p.1 ≠ "entry")
    (hD : ∀ g ∈ sel, isEntryLevel g = false → noDigitTail g)
    (hf : f ∈ sel) (hfe : isEntryLevel f = false) :
    (∀ i, ∀ hi : i < ts.length,
      dictFind? (rowOfEntry sel eid ed) (colName lang f i) =
        some (dictGet (ts.get ⟨i, hi⟩) f "")) ∧
    dictMem (rowOfEntry sel eid ed) (colName lang f ts.length) = false := by
  rw [rowOfEntry_eq_applyWrites]
  constructor
  · intro i hi
    apply applyWrites_find?_of_written
    · intro w hw hkey
      obtain ⟨l', ts', f', i', hml', hf', hfe', hi', he⟩ :=
        entryWrites_mem_elim sel ed.languages w hw
      have hw1 : w.1 = colName l' f' i' := by rw [he]
      have heq : colName l' f' i' = colName lang f i := by rw [← hw1, hkey]
      obtain ⟨h1, h2, h3⟩ := colName_inj l' lang f' f i' i (hU _ hml').1
        (hU _ hml).1 (hD f' hf' hfe') (hD f hf hfe) heq
      subst h1
      subst h2
      subst h3
      have hts : ts' = ts := assoc_nodup_unique ed.languages hnd l' ts' ts hml' hml
      subst hts
      rw [he]
    · exact ⟨_, entryWrites_mem_intro sel ed.languages lang ts f i hml hi hf hfe, rfl⟩
  · rw [applyWrites_mem]
    have hbase : dictMem (rowBase sel eid ed.entryFields)
        (colName lang f ts.length) = false := by
      by_contra hb
      have hb' : dictMem (rowBase sel eid ed.entryFields)
          (colName lang f ts.length) = true := by
        simpa using hb
      have hk := rowBase_keys sel eid ed.entryFields _ hb'
      have hk' : colName lang f ts.length = "entry_id" ∨
          strStarts (colName lang f ts.length) "entry_" = true := by
        rcases hk with h | h
        · exact Or.inl h
        · exact Or.inr h.2
      exact colName_ne_entry_key lang f ts.length _ (hU _ hml).1
        (hU _ hml).2 hk' rfl
    have hws : (entryWrites sel ed.languages).any
        (fun w => w.1 = colName lang f ts.length) = false := by
      rw [List.any_eq_false]
      intro w hw
      simp only [decide_eq_true_eq]
      intro hkey
      obtain ⟨l', ts', f', i', hml', hf', hfe', hi', he⟩ :=
        entryWrites_mem_elim sel ed.languages w hw
      have hw1 : w.1 = colName l' f' i' := by rw [he]
      have heq : colName l' f' i' = colName lang f ts.length := by
        rw [← hw1, hkey]
      obtain ⟨h1, h2, h3⟩ := colName_inj l' lang f' f i' ts.length
        (hU _ hml').1 (hU _ hml).1 (hD f' hf' hfe') (hD f hf hfe) heq
      subst h1
      subst h2
      have hts : ts' = ts := assoc_nodup_unique ed.languages hnd l' ts' ts hml' hml
      subst hts
      rw [h3] at hi'
      exact absurd hi' (lt_irrefl _)
    rw [hbase, hws]
    rfl

/-- Shared two-term entry for the C2 witness. -/
def sampleEd2 : EntryData :=
  ⟨[], [("en", [[("term", "cat"), ("language", "en")],
                [("term", "feline"), ("language", "en")]])]⟩

/-- Witness for C2: the `en` language of a concrete entry with two
records populates `en_term` and `en_term_2` with the record values and
creates no `en_term_3`. -/
theorem claim_C2_witness :
    dictFind? (rowOfEntry ["entry_id", "language", "term"] "E1" sampleEd2)
      (colName "en" "term" 0) = some "cat" ∧
    dictFind? (rowOfEntry ["entry_id", "language", "term"] "E1" sampleEd2)
      (colName "en" "term" 1) = some "feline" ∧
    dictMem (rowOfEntry ["entry_id", "language", "term"] "E1" sampleEd2)
      (colName "en" "term" 2) = false := by
  have h := claim_C2 ["entry_id", "language", "term"] "E1" sampleEd2 "en"
    [[("term", "cat"), ("language", "en")],
     [("term", "feline"), ("language", "en")]] "term"
    (by decide) (by decide) (by decide) (by decide) (by decide) (by decide)
  refine ⟨?_, ?_, h.2⟩
  · rw [h.1 0 (by decide)]
    decide
  · rw [h.1 1 (by decide)]
    decide

end Tbx
